import Mathlib

set_option maxHeartbeats 1000000

/-!
Verification of the safe search-and-replace core of the WordPress DB explorer
(`src/search_replace.py`).  Strings are modelled as `List Char` (Python `str`
is a sequence of code points, and `len` counts characters).  Loops are
modelled with an explicit fuel argument, always called with enough fuel; the
wrappers supply `length + 1`, which the lemmas below show is sufficient.
-/

namespace WpDbExplorer

/-! ## Python `str.replace`

`str.replace(search, replace)` replaces non-overlapping occurrences left to
right; an empty search string inserts the replacement at every position,
including both ends. -/

/-- Auxiliary recursion for `replaceAll` with nonempty needle, on fuel. -/
def replaceGo (s r : List Char) : Nat → List Char → List Char
  | _, [] => []
  | 0, t => t
  | fuel+1, c :: rest =>
    if s.isPrefixOf (c :: rest) then r ++ replaceGo s r fuel ((c :: rest).drop s.length)
    else c :: replaceGo s r fuel rest

/-- Embedding of Python `t.replace(s, r)`. -/
def replaceAll (t s r : List Char) : List Char :=
  if s.isEmpty then r ++ t.flatMap (fun c => c :: r)
  else replaceGo s r t.length t

/-- Python `s in t` for strings: some contiguous substring of `t` equals `s`. -/
def containsSub (t s : List Char) : Bool :=
  (List.range (t.length + 1)).any fun i => s.isPrefixOf (t.drop i)

/-! ## Decimal rendering of a natural number

Embeds Python's `f"{n}"` / `str(n)` for a nonnegative integer: standard
decimal digits, no sign, no leading zeros (except `"0"` itself). -/

def natReprGo (fuel n : Nat) : List Char :=
  match fuel with
  | 0 => []
  | fuel+1 =>
    if n < 10 then [Nat.digitChar n]
    else natReprGo fuel (n / 10) ++ [Nat.digitChar (n % 10)]

/-- Decimal representation of `n`, as Python `str(n)` produces it. -/
def natRepr (n : Nat) : List Char := natReprGo (n + 1) n

/-- Numeric value of an ASCII digit character. -/
def digitVal (c : Char) : Nat := c.toNat - '0'.toNat

def readNatAux (acc : Nat) : List Char → Nat
  | [] => acc
  | c :: rest => readNatAux (acc * 10 + digitVal c) rest

/-- Value denoted by a string of decimal digits. -/
def readNat (l : List Char) : Nat := readNatAux 0 l

/-! ## Python `int()` acceptance

`_fix_php_serialized_lengths_wordpress` runs `int()` on the characters
between `s:` and the next `:` only to decide whether the candidate is a real
token (the parsed value is discarded).  We model which strings `int()`
accepts: optional ASCII whitespace padding, an optional single sign, then
decimal digits with single underscores allowed between digits.  (Python also
accepts non-ASCII digits and Unicode whitespace; those are outside this
model.) -/

def isPyWS (c : Char) : Bool :=
  c = ' ' || c = '\t' || c = '\n' || c = '\r' || c = Char.ofNat 11 || c = Char.ofNat 12

def stripPyWS (l : List Char) : List Char :=
  ((l.dropWhile isPyWS).reverse.dropWhile isPyWS).reverse

def intBodyRest : List Char → Bool
  | [] => true
  | '_' :: c :: rest => c.isDigit && intBodyRest rest
  | '_' :: [] => false
  | c :: rest => c.isDigit && intBodyRest rest

def intBody : List Char → Bool
  | [] => false
  | c :: rest => c.isDigit && intBodyRest rest

def pyIntAccepts (l : List Char) : Bool :=
  match stripPyWS l with
  | '+' :: rest => intBody rest
  | '-' :: rest => intBody rest
  | rest => intBody rest

/-! ## The WordPress length-repair scanner

`_fix_php_serialized_lengths_wordpress` walks the text left to right.  We
record its output as a list of spans — either a single copied-through
character, or a rewritten string token with its original digit field and the
content the boundary scan resolved — and render the spans afterwards.  The
rendering of a token is exactly the `f's:{actual_length}:"{content}";'`
the Python code appends. -/

/-- One span of scanner output: a copied character, or a string token
`s:<digits>:"<content>";` whose original digit field was `digits` and whose
resolved content is `content`. -/
inductive Span where
  | copy (c : Char)
  | tok (digits : List Char) (content : List Char)
deriving DecidableEq

/-- Python slice `l[a:b]`. -/
def slice (l : List Char) (a b : Nat) : List Char := (l.drop a).take (b - a)

/-- `findCharFromGo l ch fuel p`: index of the first occurrence of `ch` in `l`
at position `≥ p` — Python `l.find(ch, p)`, with `none` for `-1`. -/
def findCharFromGo (l : List Char) (ch : Char) : Nat → Nat → Option Nat
  | 0, _ => none
  | fuel+1, p =>
    if h : p < l.length then
      if l.get ⟨p, h⟩ = ch then some p else findCharFromGo l ch fuel (p + 1)
    else none

def findCharFrom (l : List Char) (ch : Char) (p : Nat) : Option Nat :=
  findCharFromGo l ch (l.length + 1 - p) p

/-- What may legally follow a closing `";`: end of data, the start of another
serialized token, or a structural closer — the exact test of the inner loop of
`_fix_php_serialized_lengths_wordpress`. -/
def validNext (l : List Char) : Bool :=
  l.isEmpty || ['s', ':'].isPrefixOf l || ['i', ':'].isPrefixOf l ||
  ['b', ':'].isPrefixOf l || ['d', ':'].isPrefixOf l || ['a', ':'].isPrefixOf l ||
  ['O', ':'].isPrefixOf l || ['N', ';'].isPrefixOf l || ['}'].isPrefixOf l

/-- The boundary scan: starting at `p`, find the first `";` occurrence whose
following characters pass `validNext`; `none` when no candidate is ever
accepted (Python's `content_end == -1`). -/
def findQSGo (l : List Char) : Nat → Nat → Option Nat
  | 0, _ => none
  | fuel+1, p =>
    if p < l.length then
      if ['"', ';'].isPrefixOf (l.drop p) then
        if validNext (l.drop (p + 2)) then some p else findQSGo l fuel (p + 1)
      else findQSGo l fuel (p + 1)
    else none

def findContentEnd (l : List Char) (p : Nat) : Option Nat :=
  findQSGo l (l.length + 1 - p) p

/-- Main scanner loop of `_fix_php_serialized_lengths_wordpress`, producing
spans.  At a candidate `s:` it parses the digit field up to the next `:`,
requires a following `"`, resolves the content boundary with
`findContentEnd`, and on any failure copies the single character `s` and
resumes at the next position. -/
def scanGo (l : List Char) : Nat → Nat → List Span
  | 0, _ => []
  | fuel+1, i =>
    if hi : i < l.length then
      if ['s', ':'].isPrefixOf (l.drop i) then
        match findCharFrom l ':' (i + 2) with
        | none => .copy (l.get ⟨i, hi⟩) :: scanGo l fuel (i + 1)
        | some le =>
          if pyIntAccepts (slice l (i + 2) le) then
            if ['"'].isPrefixOf (l.drop (le + 1)) then
              match findContentEnd l (le + 2) with
              | none => .copy (l.get ⟨i, hi⟩) :: scanGo l fuel (i + 1)
              | some ce =>
                .tok (slice l (i + 2) le) (slice l (le + 2) ce) :: scanGo l fuel (ce + 2)
            else .copy (l.get ⟨i, hi⟩) :: scanGo l fuel (i + 1)
          else .copy (l.get ⟨i, hi⟩) :: scanGo l fuel (i + 1)
      else .copy (l.get ⟨i, hi⟩) :: scanGo l fuel (i + 1)
    else []

/-- Span decomposition computed by `_fix_php_serialized_lengths_wordpress`. -/
def fixSpans (l : List Char) : List Span := scanGo l (l.length + 1) 0

/-- The text the Python code appends for a span: the original character for a
copy, and `s:<actual_length>:"<content>";` for a rewritten token. -/
def renderSpan : Span → List Char
  | .copy c => [c]
  | .tok _ content =>
      ['s', ':'] ++ natRepr content.length ++ [':', '"'] ++ content ++ ['"', ';']

/-- The original text a span was scanned from. -/
def origSpan : Span → List Char
  | .copy c => [c]
  | .tok digits content =>
      ['s', ':'] ++ digits ++ [':', '"'] ++ content ++ ['"', ';']

/-- Embedding of `_fix_php_serialized_lengths_wordpress`. -/
def fixLengths (l : List Char) : List Char :=
  (List.map renderSpan (fixSpans l)).flatten

/-- Embedding of `_replace_in_php_serialized`: literal replacement first, then
the length repair exactly when the two terms differ and have different
lengths.  (The `try` around the body protects operations that cannot fail;
the model is total.) -/
def phpReplace (t s r : List Char) : List Char :=
  let newData := replaceAll t s r
  if s ≠ r ∧ s.length ≠ r.length then fixLengths newData else newData

/-! ## The format classifier `_is_php_serialized`

The five anchored regular expressions are compiled with `re.DOTALL` and run
with `re.match`.  Python's `$` matches at the very end of the string or just
before a single trailing newline, so each pattern is modelled as a
whole-string body matcher plus that trailing-newline tolerance.  `\d` is
modelled as an ASCII digit. -/

/-- Body of `^a:\d+:\{.*\}$`: the whole string is `a:<digits>:{...}`. -/
def matchArrayBody (v : List Char) : Bool :=
  match v with
  | 'a' :: ':' :: rest =>
    let ds := rest.takeWhile Char.isDigit
    let rest2 := rest.dropWhile Char.isDigit
    !ds.isEmpty &&
      (match rest2 with
       | ':' :: '{' :: mid => !mid.isEmpty && decide (mid.getLast? = some '}')
       | _ => false)
  | _ => false

/-- Body of `^s:\d+:".*";$`: the whole string is `s:<digits>:"...";`. -/
def matchStringBody (v : List Char) : Bool :=
  match v with
  | 's' :: ':' :: rest =>
    let ds := rest.takeWhile Char.isDigit
    let rest2 := rest.dropWhile Char.isDigit
    !ds.isEmpty &&
      (match rest2 with
       | ':' :: '"' :: tail => decide (2 ≤ tail.length) && ['"', ';'].isSuffixOf tail
       | _ => false)
  | _ => false

/-- Body of `^i:\d+;$`: the whole string is `i:<digits>;`. -/
def matchIntBody (v : List Char) : Bool :=
  match v with
  | 'i' :: ':' :: rest =>
    let ds := rest.takeWhile Char.isDigit
    let rest2 := rest.dropWhile Char.isDigit
    !ds.isEmpty && decide (rest2 = [';'])
  | _ => false

/-- Body of `^b:[01];$`: the whole string is `b:0;` or `b:1;`. -/
def matchBoolBody (v : List Char) : Bool :=
  match v with
  | ['b', ':', c, ';'] => c = '0' || c = '1'
  | _ => false

/-- Body of `^O:\d+:".*":\d+:\{.*\}$`: the whole string is
`O:<digits>:"...":<digits>:{...}`, the inner split being found by the
backtracking `.*`. -/
def matchObjectBody (v : List Char) : Bool :=
  match v with
  | 'O' :: ':' :: rest =>
    let ds := rest.takeWhile Char.isDigit
    let rest2 := rest.dropWhile Char.isDigit
    !ds.isEmpty &&
      (match rest2 with
       | ':' :: '"' :: tail =>
         (List.range (tail.length + 1)).any fun j =>
           match tail.drop j with
           | '"' :: ':' :: after2 =>
             let ds2 := after2.takeWhile Char.isDigit
             let rest3 := after2.dropWhile Char.isDigit
             !ds2.isEmpty &&
               (match rest3 with
                | ':' :: '{' :: mid => !mid.isEmpty && decide (mid.getLast? = some '}')
                | _ => false)
           | _ => false
       | _ => false)
  | _ => false

/-- Python `re.match(p, v)` for an anchored `^...$` pattern: the body matches
the whole string, or the whole string minus a single trailing newline. -/
def matchesWithDollar (body : List Char → Bool) (v : List Char) : Bool :=
  body v || (decide (v.getLast? = some '\n') && body v.dropLast)

/-- The five shape bodies, as whole-string matches (the way the spec words
"the entire string matches one of these anchored shapes"). -/
def specPhpShape (v : List Char) : Bool :=
  matchArrayBody v || matchStringBody v || matchIntBody v || matchBoolBody v ||
  matchObjectBody v

/-- Embedding of `_is_php_serialized`. -/
def isPhpSerialized (v : List Char) : Bool :=
  !v.isEmpty &&
    (matchesWithDollar matchArrayBody v || matchesWithDollar matchStringBody v ||
     matchesWithDollar matchIntBody v || matchesWithDollar matchBoolBody v ||
     matchesWithDollar matchObjectBody v)

/-! ## JSON values

Model of the JSON trees `json.loads` produces and `json.dumps` consumes.
Numbers are modelled as integers: JSON numerals with a fraction or exponent
part become Python floats, whose value and re-rendering are floating-point
behaviour outside this embedding (the parser below rejects them, and `NaN`,
`Infinity` and `-Infinity` likewise).  Python strings admit lone surrogates
(via `\uXXXX` escapes); Lean `Char` cannot represent them, so the model's
parser rejects lone surrogate escapes and combines proper pairs, as Python
does. -/

inductive Json where
  | null
  | bool (b : Bool)
  | num (n : Int)
  | str (s : List Char)
  | arr (xs : List Json)
  | obj (kvs : List (List Char × Json))

/-- JSON inter-token whitespace. -/
def jsonWS (c : Char) : Bool := c = ' ' || c = '\t' || c = '\n' || c = '\r'

def skipWS (l : List Char) : List Char := l.dropWhile jsonWS

def hexVal (c : Char) : Option Nat :=
  if '0' ≤ c ∧ c ≤ '9' then some (c.toNat - '0'.toNat)
  else if 'a' ≤ c ∧ c ≤ 'f' then some (c.toNat - 'a'.toNat + 10)
  else if 'A' ≤ c ∧ c ≤ 'F' then some (c.toNat - 'A'.toNat + 10)
  else none

/-! Parsing the body of a JSON string after the opening quote, returning the
decoded characters and the input after the closing quote.  Unescaped control
characters are rejected (`json.loads` default `strict=True`); surrogate
pairs are combined.  The escape and `\uXXXX` sub-parsers are split out so
each match stays shallow. -/
mutual

def parseStringBody : List Char → Option (List Char × List Char)
  | [] => none
  | c :: rest =>
    if c = '"' then some ([], rest)
    else if c = '\\' then parseEscape rest
    else if c.toNat < 0x20 then none
    else (parseStringBody rest).map fun (s, r) => (c :: s, r)

def parseEscape : List Char → Option (List Char × List Char)
  | [] => none
  | e :: rest2 =>
    if e = '"' then (parseStringBody rest2).map fun (s, r) => ('"' :: s, r)
    else if e = '\\' then (parseStringBody rest2).map fun (s, r) => ('\\' :: s, r)
    else if e = '/' then (parseStringBody rest2).map fun (s, r) => ('/' :: s, r)
    else if e = 'b' then (parseStringBody rest2).map fun (s, r) => (Char.ofNat 8 :: s, r)
    else if e = 'f' then (parseStringBody rest2).map fun (s, r) => (Char.ofNat 12 :: s, r)
    else if e = 'n' then (parseStringBody rest2).map fun (s, r) => ('\n' :: s, r)
    else if e = 'r' then (parseStringBody rest2).map fun (s, r) => ('\r' :: s, r)
    else if e = 't' then (parseStringBody rest2).map fun (s, r) => ('\t' :: s, r)
    else if e = 'u' then parseUnicode rest2
    else none

def parseUnicode : List Char → Option (List Char × List Char)
  | h1 :: h2 :: h3 :: h4 :: rest3 =>
    (hexVal h1).bind fun a => (hexVal h2).bind fun b =>
      (hexVal h3).bind fun c2 => (hexVal h4).bind fun d =>
        let n := ((a * 16 + b) * 16 + c2) * 16 + d
        if 0xD800 ≤ n ∧ n ≤ 0xDBFF then parseLowSurrogate n rest3
        else if 0xDC00 ≤ n ∧ n ≤ 0xDFFF then none
        else (parseStringBody rest3).map fun (s, r) => (Char.ofNat n :: s, r)
  | _ => none

def parseLowSurrogate (n : Nat) : List Char → Option (List Char × List Char)
  | b1 :: b2 :: g1 :: g2 :: g3 :: g4 :: rest4 =>
    if b1 = '\\' ∧ b2 = 'u' then
      (hexVal g1).bind fun e1 => (hexVal g2).bind fun f1 =>
        (hexVal g3).bind fun g5 => (hexVal g4).bind fun h5 =>
          let m := ((e1 * 16 + f1) * 16 + g5) * 16 + h5
          if 0xDC00 ≤ m ∧ m ≤ 0xDFFF then
            (parseStringBody rest4).map fun (s, r) =>
              (Char.ofNat (0x10000 + (n - 0xD800) * 0x400 + (m - 0xDC00)) :: s, r)
          else none
    else none
  | _ => none

end

/-- Integer part of a JSON numeral: `0`, or a nonzero digit followed by
digits, per the JSON grammar (no leading zeros). -/
def parseIntPart : List Char → Option (Nat × List Char)
  | [] => none
  | c :: rest =>
    if c = '0' then some (0, rest)
    else if c.isDigit then
      some (readNat ((c :: rest).takeWhile Char.isDigit),
            (c :: rest).dropWhile Char.isDigit)
    else none

/-- `true` when the characters following an integer part would extend it to a
float numeral (fraction or exponent), which is outside this model. -/
def floatFollows : List Char → Bool
  | c :: _ => c = '.' || c = 'e' || c = 'E'
  | [] => false

def parseNumber (l : List Char) : Option (Int × List Char) :=
  match l with
  | [] => none
  | c :: rest =>
    if c = '-' then
      (parseIntPart rest).bind fun (n, rest2) =>
        if floatFollows rest2 then none else some (-(n : Int), rest2)
    else
      (parseIntPart (c :: rest)).bind fun (n, rest2) =>
        if floatFollows rest2 then none else some ((n : Int), rest2)

/-- Python `dict` insertion: replace the value at an existing key (keeping
its position) or append a new binding. -/
def insertKV : List (List Char × Json) → List Char → Json → List (List Char × Json)
  | [], k, v => [(k, v)]
  | (k', v') :: rest, k, v =>
    if k' = k then (k', v) :: rest else (k', v') :: insertKV rest k v

/-- Fold a parsed member list into a Python `dict`: later duplicate keys
overwrite earlier values in place. -/
def dictOf (kvs : List (List Char × Json)) : List (List Char × Json) :=
  kvs.foldl (fun acc kv => insertKV acc kv.1 kv.2) []

mutual

/-- Recursive-descent JSON value parser (the grammar `json.loads` accepts,
minus the float-valued numerals noted above). -/
def parseVal : Nat → List Char → Option (Json × List Char)
  | 0, _ => none
  | fuel+1, l =>
    match skipWS l with
    | [] => none
    | c :: rest =>
      if c = 'n' then
        if ['u', 'l', 'l'].isPrefixOf rest then some (.null, rest.drop 3) else none
      else if c = 't' then
        if ['r', 'u', 'e'].isPrefixOf rest then some (.bool true, rest.drop 3) else none
      else if c = 'f' then
        if ['a', 'l', 's', 'e'].isPrefixOf rest then some (.bool false, rest.drop 4)
        else none
      else if c = '"' then
        (parseStringBody rest).map fun (s, r) => (.str s, r)
      else if c = '[' then
        if (skipWS rest).head? = some ']' then some (.arr [], (skipWS rest).tail)
        else (parseItems fuel rest).map fun (xs, r) => (.arr xs, r)
      else if c = '{' then
        if (skipWS rest).head? = some '}' then some (.obj [], (skipWS rest).tail)
        else (parseMembers fuel rest).map fun (kvs, r) => (.obj (dictOf kvs), r)
      else (parseNumber (c :: rest)).map fun (n, r) => (.num n, r)

/-- One-or-more comma-separated array items, up to and including `]`. -/
def parseItems : Nat → List Char → Option (List Json × List Char)
  | 0, _ => none
  | fuel+1, l =>
    (parseVal fuel l).bind fun (v, rest) =>
      if (skipWS rest).head? = some ',' then
        (parseItems fuel (skipWS rest).tail).map fun (vs, r) => (v :: vs, r)
      else if (skipWS rest).head? = some ']' then some ([v], (skipWS rest).tail)
      else none

/-- One-or-more `"key": value` members, up to and including `}`. -/
def parseMembers : Nat → List Char → Option (List (List Char × Json) × List Char)
  | 0, _ => none
  | fuel+1, l =>
    match skipWS l with
    | [] => none
    | c :: rest =>
      if c = '"' then
        (parseStringBody rest).bind fun (k, rest1) =>
          if (skipWS rest1).head? = some ':' then
            (parseVal fuel (skipWS rest1).tail).bind fun (v, rest3) =>
              if (skipWS rest3).head? = some ',' then
                (parseMembers fuel (skipWS rest3).tail).map fun (kvs, r) =>
                  ((k, v) :: kvs, r)
              else if (skipWS rest3).head? = some '}' then
                some ([(k, v)], (skipWS rest3).tail)
              else none
          else none
      else none

end

/-- Embedding of `json.loads` viability and result: parse one value, allow
trailing whitespace, reject trailing junk. -/
def parseJson (l : List Char) : Option Json :=
  match parseVal (2 * l.length + 2) l with
  | some (j, rest) => if (skipWS rest).isEmpty then some j else none
  | none => none

/-- Embedding of `_is_json_data`. -/
def isJsonData (l : List Char) : Bool := (parseJson l).isSome

/-- Lowercase hexadecimal digit, as Python's `\u00%02x` escapes use. -/
def hexDigit (n : Nat) : Char :=
  if n < 10 then Nat.digitChar n else Char.ofNat ('a'.toNat + n - 10)

/-- `json.dumps` escaping of one character with `ensure_ascii=False`:
`"`, `\` and control characters are escaped (named shortcuts first), all
other characters pass through literally. -/
def escChar (c : Char) : List Char :=
  if c = '"' then ['\\', '"']
  else if c = '\\' then ['\\', '\\']
  else if c = '\n' then ['\\', 'n']
  else if c = '\r' then ['\\', 'r']
  else if c = '\t' then ['\\', 't']
  else if c.toNat = 8 then ['\\', 'b']
  else if c.toNat = 12 then ['\\', 'f']
  else if c.toNat < 0x20 then
    ['\\', 'u', '0', '0', hexDigit (c.toNat / 16), hexDigit (c.toNat % 16)]
  else [c]

def escStr (s : List Char) : List Char := s.flatMap escChar

/-- Python `str(n)` for an int. -/
def intRepr (n : Int) : List Char :=
  if n < 0 then '-' :: natRepr (-n).toNat else natRepr n.toNat

mutual

/-- Embedding of `json.dumps(..., ensure_ascii=False, separators=(',', ':'))`:
compact, single-line, insertion-ordered. -/
def dumps : Json → List Char
  | .num n => intRepr n
  | .str s => '"' :: escStr s ++ ['"']
  | .arr xs => '[' :: dumpsItems xs ++ [']']
  | .obj kvs => '{' :: dumpsMembers kvs ++ ['}']
  | .bool b => if b then ['t', 'r', 'u', 'e'] else ['f', 'a', 'l', 's', 'e']
  | .null => ['n', 'u', 'l', 'l']

def dumpsItems : List Json → List Char
  | [] => []
  | [x] => dumps x
  | x :: y :: xs => dumps x ++ ',' :: dumpsItems (y :: xs)

def dumpsMembers : List (List Char × Json) → List Char
  | [] => []
  | [(k, v)] => '"' :: escStr k ++ '"' :: ':' :: dumps v
  | (k, v) :: m :: kvs =>
      '"' :: escStr k ++ '"' :: ':' :: dumps v ++ ',' :: dumpsMembers (m :: kvs)

end

mutual

/-- Embedding of `_replace_in_json_object`: recurse through dict values and
list items, replace in string leaves, leave keys and other scalars alone. -/
def jsonReplace (s r : List Char) : Json → Json
  | .obj kvs => .obj (jsonReplaceKVs s r kvs)
  | .arr xs => .arr (jsonReplaceList s r xs)
  | .str st => .str (replaceAll st s r)
  | j => j

def jsonReplaceList (s r : List Char) : List Json → List Json
  | [] => []
  | x :: xs => jsonReplace s r x :: jsonReplaceList s r xs

def jsonReplaceKVs (s r : List Char) :
    List (List Char × Json) → List (List Char × Json)
  | [] => []
  | (k, v) :: kvs => (k, jsonReplace s r v) :: jsonReplaceKVs s r kvs

end

/-- Embedding of `_replace_in_json_data`: parse, replace in the tree,
re-serialize compactly; on parse failure fall back to plain replacement. -/
def jsonReplaceData (t s r : List Char) : List Char :=
  match parseJson t with
  | some j => dumps (jsonReplace s r j)
  | none => replaceAll t s r

/-- Embedding of `_safe_replace_in_serialized_data` (the facade), with the
optional `phpserialize` third-party library modelled as unavailable, so the
PHP branch is the custom rewriter `_replace_in_php_serialized`. -/
def safeReplace (v : Option (List Char)) (s r : List Char) : List Char :=
  match v with
  | none => []
  | some t =>
    if t.isEmpty then []
    else if isPhpSerialized t then phpReplace t s r
    else if isJsonData t then jsonReplaceData t s r
    else replaceAll t s r

/-- The head of the remaining input does not extend a decimal numeral. -/
def noNumExt : List Char → Bool
  | [] => true
  | c :: _ => !(c.isDigit || c = '.' || c = 'e' || c = 'E')

/-! ### Well-formed trees, shapes and string leaves -/

/-- Duplicate-freedom of an object's key list. -/
def keysNodup : List (List Char) → Bool
  | [] => true
  | k :: ks => !(decide (k ∈ ks)) && keysNodup ks

mutual

/-- Trees as the parser produces them: every object's keys duplicate-free. -/
def jsonWF : Json → Bool
  | .arr xs => jsonWFList xs
  | .obj kvs => keysNodup (kvs.map Prod.fst) && jsonWFKVs kvs
  | _ => true

def jsonWFList : List Json → Bool
  | [] => true
  | x :: xs => jsonWF x && jsonWFList xs

def jsonWFKVs : List (List Char × Json) → Bool
  | [] => true
  | (_, v) :: kvs => jsonWF v && jsonWFKVs kvs

end

mutual

/-- The shape of a tree: structure, keys and non-string scalars, with every
string leaf blanked. -/
def jshape : Json → Json
  | .str _ => .str []
  | .arr xs => .arr (jshapeList xs)
  | .obj kvs => .obj (jshapeKVs kvs)
  | j => j

def jshapeList : List Json → List Json
  | [] => []
  | x :: xs => jshape x :: jshapeList xs

def jshapeKVs : List (List Char × Json) → List (List Char × Json)
  | [] => []
  | (k, v) :: kvs => (k, jshape v) :: jshapeKVs kvs

end

mutual

/-- The string leaves of a tree, in traversal order (keys excluded). -/
def jstrings : Json → List (List Char)
  | .str s => [s]
  | .arr xs => jstringsList xs
  | .obj kvs => jstringsKVs kvs
  | _ => []

def jstringsList : List Json → List (List Char)
  | [] => []
  | x :: xs => jstrings x ++ jstringsList xs

def jstringsKVs : List (List Char × Json) → List (List Char)
  | [] => []
  | (_, v) :: kvs => jstrings v ++ jstringsKVs kvs

end

/-! ## List helpers -/

lemma prefix_drop_eq {p l : List Char} {i : Nat} (h : p.isPrefixOf (l.drop i) = true) :
    l.drop i = p ++ l.drop (i + p.length) := by
  have h' : p <+: l.drop i := List.isPrefixOf_iff_prefix.mp h
  have ht : p = (l.drop i).take p.length := List.prefix_iff_eq_take.mp h'
  conv_lhs => rw [← List.take_append_drop p.length (l.drop i)]
  rw [← ht, List.drop_drop, Nat.add_comm]

lemma slice_append_drop {l : List Char} {i j : Nat} (h : i ≤ j) :
    slice l i j ++ l.drop j = l.drop i := by
  unfold slice
  conv_rhs => rw [← List.take_append_drop (j - i) (l.drop i)]
  rw [List.drop_drop]
  have : i + (j - i) = j := by omega
  rw [this]

/-! ## Decimal round trip -/

lemma natReprGo_succ (fuel n : Nat) :
    natReprGo (fuel + 1) n =
      if n < 10 then [Nat.digitChar n]
      else natReprGo fuel (n / 10) ++ [Nat.digitChar (n % 10)] := by
  simp only [natReprGo]

lemma natReprGo_fuel : ∀ f₁ f₂ n : Nat, n < f₁ → n < f₂ → natReprGo f₁ n = natReprGo f₂ n := by
  intro f₁
  induction f₁ using Nat.strong_induction_on with
  | _ f₁ ih =>
    intro f₂ n h₁ h₂
    obtain ⟨g₁, rfl⟩ : ∃ g, f₁ = g + 1 := ⟨f₁ - 1, by omega⟩
    obtain ⟨g₂, rfl⟩ : ∃ g, f₂ = g + 1 := ⟨f₂ - 1, by omega⟩
    rw [natReprGo_succ, natReprGo_succ]
    by_cases h : n < 10
    · simp [h]
    · simp only [h, if_false]
      have hdiv : n / 10 < n := Nat.div_lt_self (by omega) (by norm_num)
      rw [ih g₁ (by omega) g₂ (n / 10) (by omega) (by omega)]

lemma readNatAux_append (acc : Nat) (xs : List Char) (c : Char) :
    readNatAux acc (xs ++ [c]) = (readNatAux acc xs) * 10 + digitVal c := by
  induction xs generalizing acc with
  | nil => rfl
  | cons x xs ih =>
    rw [List.cons_append,
      show readNatAux acc (x :: (xs ++ [c])) = readNatAux (acc * 10 + digitVal x) (xs ++ [c]) from rfl,
      ih,
      show readNatAux acc (x :: xs) = readNatAux (acc * 10 + digitVal x) xs from rfl]

lemma digitVal_digitChar {n : Nat} (h : n < 10) : digitVal (Nat.digitChar n) = n := by
  interval_cases n <;> decide

/-- The decimal rendering of `n` reads back as `n`. -/
lemma readNat_natRepr (n : Nat) : readNat (natRepr n) = n := by
  induction n using Nat.strong_induction_on with
  | _ n ih =>
    by_cases h : n < 10
    · show readNatAux 0 (natReprGo (n+1) n) = n
      rw [natReprGo_succ, if_pos h]
      show 0 * 10 + digitVal (Nat.digitChar n) = n
      rw [digitVal_digitChar h]
      omega
    · have hdiv : n / 10 < n := Nat.div_lt_self (by omega) (by norm_num)
      have step : natRepr n = natRepr (n / 10) ++ [Nat.digitChar (n % 10)] := by
        show natReprGo (n+1) n = _
        rw [natReprGo_succ, if_neg h]
        rw [natReprGo_fuel n (n / 10 + 1) (n / 10) (by omega) (by omega)]
        rfl
      rw [step]
      show readNatAux 0 (natRepr (n / 10) ++ [Nat.digitChar (n % 10)]) = n
      rw [readNatAux_append]
      have hmod : n % 10 < 10 := Nat.mod_lt _ (by norm_num)
      have ihd : readNatAux 0 (natRepr (n / 10)) = n / 10 := ih (n / 10) hdiv
      rw [ihd, digitVal_digitChar hmod]
      omega

/-! ## Facts about the literal replacement -/

lemma replaceGo_succ_cons (s r : List Char) (fuel : Nat) (c : Char) (rest : List Char) :
    replaceGo s r (fuel + 1) (c :: rest) =
      if s.isPrefixOf (c :: rest) = true then
        r ++ replaceGo s r fuel ((c :: rest).drop s.length)
      else c :: replaceGo s r fuel rest := rfl

lemma replaceGo_self {s : List Char} (hs : s ≠ []) :
    ∀ fuel t, t.length ≤ fuel → replaceGo s s fuel t = t := by
  intro fuel
  induction fuel with
  | zero =>
    intro t ht
    have : t = [] := List.length_eq_zero.mp (by omega)
    subst this; rfl
  | succ fuel ih =>
    intro t ht
    match t with
    | [] => rfl
    | c :: rest =>
      rw [replaceGo_succ_cons]
      by_cases hp : s.isPrefixOf (c :: rest) = true
      · rw [if_pos hp]
        have hslen : 1 ≤ s.length := by
          cases s with | nil => exact absurd rfl hs | cons a l => simp
        have hdec : ((c :: rest).drop s.length).length ≤ fuel := by
          simp only [List.length_drop, List.length_cons]
          simp only [List.length_cons] at ht
          omega
        rw [ih _ hdec]
        have hd := prefix_drop_eq (l := c :: rest) (i := 0) (p := s) (by simpa using hp)
        simp only [List.drop_zero, Nat.zero_add] at hd
        exact hd.symm
      · rw [if_neg hp]
        rw [ih rest (by simp only [List.length_cons] at ht; omega)]

lemma flatMap_singleton_id (u : List Char) : u.flatMap (fun c => [c]) = u := by
  simp

lemma replaceAll_self (t s : List Char) : replaceAll t s s = t := by
  unfold replaceAll
  by_cases h : s.isEmpty = true
  · have hs : s = [] := by cases s <;> simp_all
    subst hs
    simp
  · rw [if_neg h]
    have hs : s ≠ [] := by cases s <;> simp_all
    exact replaceGo_self hs t.length t le_rfl

lemma containsSub_nonempty {t s : List Char} (h : containsSub t s = false) : s ≠ [] := by
  intro hs
  subst hs
  unfold containsSub at h
  simp [List.isPrefixOf] at h
  have := h 0
  omega

lemma containsSub_false_isPrefixOf {t s : List Char} (h : containsSub t s = false) :
    ∀ i, s.isPrefixOf (t.drop i) = false := by
  intro i
  have hs := containsSub_nonempty h
  by_cases hi : i ≤ t.length
  · unfold containsSub at h
    rw [List.any_eq_false] at h
    have hne := h i (by simp only [List.mem_range]; omega)
    cases hb : s.isPrefixOf (t.drop i) with
    | false => rfl
    | true => exact absurd hb hne
  · have hnil : t.drop i = [] := List.drop_eq_nil_of_le (by omega)
    rw [hnil]
    cases s with
    | nil => exact absurd rfl hs
    | cons a l => rfl

lemma replaceGo_not_contains {s r : List Char} :
    ∀ fuel (t : List Char), (∀ i, s.isPrefixOf (t.drop i) = false) →
      replaceGo s r fuel t = t := by
  intro fuel
  induction fuel with
  | zero => intro t _; cases t <;> rfl
  | succ fuel ih =>
    intro t h
    match t with
    | [] => rfl
    | c :: rest =>
      rw [replaceGo_succ_cons]
      have h0 : s.isPrefixOf (c :: rest) = false := by simpa using h 0
      rw [if_neg (by simp [h0])]
      rw [ih rest (fun i => by simpa using h (i + 1))]

lemma replaceAll_not_contains {t s : List Char} (r : List Char)
    (h : containsSub t s = false) : replaceAll t s r = t := by
  unfold replaceAll
  have hs := containsSub_nonempty h
  have : s.isEmpty = false := by cases s <;> simp_all
  simp only [this, Bool.false_eq_true, if_false]
  exact replaceGo_not_contains _ _ (containsSub_false_isPrefixOf h)

/-! ## Scanner specification lemmas -/

lemma prefix2_drop {a b : Char} {l : List Char} {i : Nat}
    (h : [a, b].isPrefixOf (l.drop i) = true) : l.drop i = a :: b :: l.drop (i + 2) := by
  have hd := prefix_drop_eq h
  simpa using hd

lemma prefix1_drop {a : Char} {l : List Char} {i : Nat}
    (h : [a].isPrefixOf (l.drop i) = true) : l.drop i = a :: l.drop (i + 1) := by
  have hd := prefix_drop_eq h
  simpa using hd

lemma findCharFromGo_succ (l : List Char) (ch : Char) (fuel p : Nat) :
    findCharFromGo l ch (fuel + 1) p =
      if h : p < l.length then
        if l.get ⟨p, h⟩ = ch then some p else findCharFromGo l ch fuel (p + 1)
      else none := rfl

lemma findCharFromGo_spec {l : List Char} {ch : Char} :
    ∀ fuel p q, findCharFromGo l ch fuel p = some q →
      p ≤ q ∧ q < l.length ∧ l.drop q = ch :: l.drop (q + 1) := by
  intro fuel
  induction fuel with
  | zero => intro p q h; exact absurd h (by simp [findCharFromGo])
  | succ fuel ih =>
    intro p q h
    rw [findCharFromGo_succ] at h
    by_cases hp : p < l.length
    · rw [dif_pos hp] at h
      by_cases hc : l.get ⟨p, hp⟩ = ch
      · rw [if_pos hc] at h
        obtain rfl : p = q := by simpa using h
        refine ⟨le_rfl, hp, ?_⟩
        rw [List.drop_eq_getElem_cons hp]
        have hg : l[p] = ch := hc
        rw [hg]
      · rw [if_neg hc] at h
        obtain ⟨h1, h2, h3⟩ := ih (p + 1) q h
        exact ⟨by omega, h2, h3⟩
    · rw [dif_neg hp] at h
      exact absurd h (by simp)

lemma findCharFrom_spec {l : List Char} {ch : Char} {p q : Nat}
    (h : findCharFrom l ch p = some q) :
    p ≤ q ∧ q < l.length ∧ l.drop q = ch :: l.drop (q + 1) :=
  findCharFromGo_spec _ _ _ h

lemma findQSGo_succ (l : List Char) (fuel p : Nat) :
    findQSGo l (fuel + 1) p =
      if p < l.length then
        if ['"', ';'].isPrefixOf (l.drop p) then
          if validNext (l.drop (p + 2)) then some p else findQSGo l fuel (p + 1)
        else findQSGo l fuel (p + 1)
      else none := rfl

/-- A successful boundary scan returns the first `";` candidate at or after
`p` whose following characters pass `validNext`. -/
lemma findQSGo_some_spec {l : List Char} :
    ∀ fuel p q, findQSGo l fuel p = some q →
      p ≤ q ∧ ['"', ';'].isPrefixOf (l.drop q) = true ∧ validNext (l.drop (q + 2)) = true ∧
      ∀ q', p ≤ q' → q' < q → ['"', ';'].isPrefixOf (l.drop q') = true →
        validNext (l.drop (q' + 2)) = false := by
  intro fuel
  induction fuel with
  | zero => intro p q h; exact absurd h (by simp [findQSGo])
  | succ fuel ih =>
    intro p q h
    rw [findQSGo_succ] at h
    by_cases hp : p < l.length
    · rw [if_pos hp] at h
      by_cases hcand : ['"', ';'].isPrefixOf (l.drop p) = true
      · rw [if_pos hcand] at h
        by_cases hacc : validNext (l.drop (p + 2)) = true
        · rw [if_pos hacc] at h
          obtain rfl : p = q := by simpa using h
          exact ⟨le_rfl, hcand, hacc, fun q' h1 h2 _ => by omega⟩
        · rw [if_neg hacc] at h
          obtain ⟨h1, h2, h3, h4⟩ := ih (p + 1) q h
          refine ⟨by omega, h2, h3, fun q' hq1 hq2 hq3 => ?_⟩
          rcases Nat.eq_or_lt_of_le hq1 with rfl | hlt
          · exact Bool.not_eq_true _ ▸ hacc
          · exact h4 q' hlt hq2 hq3
      · rw [if_neg hcand] at h
        obtain ⟨h1, h2, h3, h4⟩ := ih (p + 1) q h
        refine ⟨by omega, h2, h3, fun q' hq1 hq2 hq3 => ?_⟩
        rcases Nat.eq_or_lt_of_le hq1 with rfl | hlt
        · exact absurd hq3 hcand
        · exact h4 q' hlt hq2 hq3
    · rw [if_neg hp] at h
      exact absurd h (by simp)

/-- A failed boundary scan means no `";` candidate at or after `p` is ever
followed by a valid continuation. -/
lemma findQSGo_none_spec {l : List Char} :
    ∀ fuel p, l.length ≤ p + fuel → findQSGo l fuel p = none →
      ∀ q, p ≤ q → ['"', ';'].isPrefixOf (l.drop q) = true →
        validNext (l.drop (q + 2)) = false := by
  intro fuel
  induction fuel with
  | zero =>
    intro p hfuel _ q hq hcand
    exfalso
    have : l.drop q = [] := List.drop_eq_nil_of_le (by omega)
    rw [this] at hcand
    simp [List.isPrefixOf] at hcand
  | succ fuel ih =>
    intro p hfuel h q hq hcand
    rw [findQSGo_succ] at h
    by_cases hp : p < l.length
    · rw [if_pos hp] at h
      by_cases hc : ['"', ';'].isPrefixOf (l.drop p) = true
      · rw [if_pos hc] at h
        by_cases hacc : validNext (l.drop (p + 2)) = true
        · rw [if_pos hacc] at h; exact absurd h (by simp)
        · rw [if_neg hacc] at h
          rcases Nat.eq_or_lt_of_le hq with rfl | hlt
          · exact Bool.not_eq_true _ ▸ hacc
          · exact ih (p + 1) (by omega) h q hlt hcand
      · rw [if_neg hc] at h
        rcases Nat.eq_or_lt_of_le hq with rfl | hlt
        · exact absurd hcand hc
        · exact ih (p + 1) (by omega) h q hlt hcand
    · exfalso
      have : l.drop q = [] := List.drop_eq_nil_of_le (by omega)
      rw [this] at hcand
      simp [List.isPrefixOf] at hcand

lemma findContentEnd_some_spec {l : List Char} {p q : Nat}
    (h : findContentEnd l p = some q) :
    p ≤ q ∧ ['"', ';'].isPrefixOf (l.drop q) = true ∧ validNext (l.drop (q + 2)) = true ∧
    ∀ q', p ≤ q' → q' < q → ['"', ';'].isPrefixOf (l.drop q') = true →
      validNext (l.drop (q' + 2)) = false :=
  findQSGo_some_spec _ _ _ h

lemma findContentEnd_none_spec {l : List Char} {p : Nat}
    (h : findContentEnd l p = none) :
    ∀ q, p ≤ q → ['"', ';'].isPrefixOf (l.drop q) = true →
      validNext (l.drop (q + 2)) = false :=
  findQSGo_none_spec _ _ (by omega) h

lemma scanGo_succ (l : List Char) (fuel i : Nat) :
    scanGo l (fuel + 1) i =
      if hi : i < l.length then
        if ['s', ':'].isPrefixOf (l.drop i) then
          match findCharFrom l ':' (i + 2) with
          | none => .copy (l.get ⟨i, hi⟩) :: scanGo l fuel (i + 1)
          | some le =>
            if pyIntAccepts (slice l (i + 2) le) then
              if ['"'].isPrefixOf (l.drop (le + 1)) then
                match findContentEnd l (le + 2) with
                | none => .copy (l.get ⟨i, hi⟩) :: scanGo l fuel (i + 1)
                | some ce =>
                  .tok (slice l (i + 2) le) (slice l (le + 2) ce) :: scanGo l fuel (ce + 2)
              else .copy (l.get ⟨i, hi⟩) :: scanGo l fuel (i + 1)
            else .copy (l.get ⟨i, hi⟩) :: scanGo l fuel (i + 1)
        else .copy (l.get ⟨i, hi⟩) :: scanGo l fuel (i + 1)
      else [] := rfl

lemma copy_case_orig {l : List Char} {fuel i : Nat} (hi : i < l.length)
    (ih : (List.map origSpan (scanGo l fuel (i + 1))).flatten = l.drop (i + 1)) :
    (List.map origSpan (Span.copy (l.get ⟨i, hi⟩) :: scanGo l fuel (i + 1))).flatten =
      l.drop i := by
  simp only [List.map_cons, List.flatten_cons]
  rw [ih, List.drop_eq_getElem_cons hi]
  rfl

/-- The scanner decomposes its input exactly: re-assembling the original text
of every span gives back the input from the scan position on. -/
lemma scanGo_orig {l : List Char} :
    ∀ fuel i, l.length ≤ i + fuel →
      (List.map origSpan (scanGo l fuel i)).flatten = l.drop i := by
  intro fuel
  induction fuel with
  | zero =>
    intro i hle
    have hd : l.drop i = [] := List.drop_eq_nil_of_le (by omega)
    simp [scanGo, hd]
  | succ fuel ih =>
    intro i hle
    rw [scanGo_succ]
    by_cases hi : i < l.length
    · rw [dif_pos hi]
      by_cases hpre : ['s', ':'].isPrefixOf (l.drop i) = true
      · rw [if_pos hpre]
        cases hfc : findCharFrom l ':' (i + 2) with
        | none => exact copy_case_orig hi (ih (i + 1) (by omega))
        | some le =>
          obtain ⟨hle1, hle2, hdropLe⟩ := findCharFrom_spec hfc
          dsimp only
          by_cases hint : pyIntAccepts (slice l (i + 2) le) = true
          · rw [if_pos hint]
            by_cases hq : ['"'].isPrefixOf (l.drop (le + 1)) = true
            · rw [if_pos hq]
              cases hce : findContentEnd l (le + 2) with
              | none => exact copy_case_orig hi (ih (i + 1) (by omega))
              | some ce =>
                obtain ⟨hce1, hce2, _, _⟩ := findContentEnd_some_spec hce
                dsimp only
                have hdropI : l.drop i = 's' :: ':' :: l.drop (i + 2) := prefix2_drop hpre
                have hdropQ : l.drop (le + 1) = '"' :: l.drop (le + 2) := prefix1_drop hq
                have hdropCe : l.drop ce = '"' :: ';' :: l.drop (ce + 2) := prefix2_drop hce2
                have hslice1 : slice l (i + 2) le ++ l.drop le = l.drop (i + 2) :=
                  slice_append_drop (by omega)
                have hslice2 : slice l (le + 2) ce ++ l.drop ce = l.drop (le + 2) :=
                  slice_append_drop (by omega)
                simp only [List.map_cons, List.flatten_cons, origSpan]
                rw [ih (ce + 2) (by omega)]
                rw [hdropI, ← hslice1, hdropLe, hdropQ, ← hslice2, hdropCe]
                simp [List.append_assoc]
            · rw [if_neg hq]
              exact copy_case_orig hi (ih (i + 1) (by omega))
          · rw [if_neg hint]
            exact copy_case_orig hi (ih (i + 1) (by omega))
      · rw [if_neg hpre]
        exact copy_case_orig hi (ih (i + 1) (by omega))
    · rw [dif_neg hi]
      have hd : l.drop i = [] := List.drop_eq_nil_of_le (by omega)
      simp [hd]

lemma fixSpans_orig (l : List Char) : (List.map origSpan (fixSpans l)).flatten = l := by
  have h := scanGo_orig (l := l) (l.length + 1) 0 (by omega)
  simpa using h

/-! ## Claims C1–C4 and C10: the PHP serialized rewriter -/

/-- C1: after the PHP serialized rewrite, every string token
`s:<len>:"<content>";` that the rewriter emits has its declared length equal
to the character count of its content: the rewrite is the rendering of the
scanner's spans, and every emitted token span renders with the decimal
representation of its content's length as the declared-length field, which
reads back as exactly that character count. -/
theorem claim_C1 (t s r : List Char) (h : s.length ≠ r.length) :
    phpReplace t s r = (List.map renderSpan (fixSpans (replaceAll t s r))).flatten ∧
    ∀ d c, Span.tok d c ∈ fixSpans (replaceAll t s r) →
      renderSpan (Span.tok d c) =
        ['s', ':'] ++ natRepr c.length ++ [':', '"'] ++ c ++ ['"', ';'] ∧
      readNat (natRepr c.length) = c.length := by
  constructor
  · show (if s ≠ r ∧ s.length ≠ r.length then fixLengths (replaceAll t s r)
          else replaceAll t s r) = _
    have hneq : s ≠ r := fun hsr => h (by rw [hsr])
    rw [if_pos ⟨hneq, h⟩]
    rfl
  · intro d c _
    exact ⟨rfl, readNat_natRepr c.length⟩

/-- C1 witness at the spec's first concrete scenario. -/
theorem claim_C1_witness :
    ("World".data.length ≠ "Universe".data.length) ∧
    phpReplace "s:11:\"Hello World\";".data "World".data "Universe".data =
      (List.map renderSpan
        (fixSpans (replaceAll "s:11:\"Hello World\";".data "World".data
          "Universe".data))).flatten :=
  ⟨by decide, (claim_C1 "s:11:\"Hello World\";".data "World".data "Universe".data
      (by decide)).1⟩

/-- C2 counterexample: in `s:05:"Hello";` the only string token's declared
length (the number 5, written `05`) equals its content's character count, yet
the repair pass rewrites the text to `s:5:"Hello";`, so it is not unchanged
byte-for-byte on already-length-correct data. -/
theorem claim_C2_counterexample :
    fixSpans "s:05:\"Hello\";".data = [Span.tok "05".data "Hello".data] ∧
    readNat "05".data = "Hello".data.length ∧
    fixLengths "s:05:\"Hello\";".data = "s:5:\"Hello\";".data ∧
    fixLengths "s:05:\"Hello\";".data ≠ "s:05:\"Hello\";".data := by decide

/-- C2 (amended): the repair pass returns its input unchanged byte-for-byte
whenever every string token it finds carries a declared-length field that is
written canonically — exactly the decimal rendering of the content's
character count (no leading zeros, sign, whitespace, or underscores).  As
stated the claim fails: a token such as `s:05:"Hello";` whose declared length
equals the content's character count but is written non-canonically is still
rewritten (see the counterexample). -/
theorem claim_C2 (l : List Char)
    (h : ∀ d c, Span.tok d c ∈ fixSpans l → d = natRepr c.length) :
    fixLengths l = l := by
  show (List.map renderSpan (fixSpans l)).flatten = l
  have hmap : List.map renderSpan (fixSpans l) = List.map origSpan (fixSpans l) := by
    refine List.map_congr_left (fun sp hsp => ?_)
    cases sp with
    | copy c => rfl
    | tok d c => rw [h d c hsp]; rfl
  rw [hmap, fixSpans_orig]

/-- C2 witness: already-correct, canonically written data is unchanged. -/
theorem claim_C2_witness :
    fixLengths "s:5:\"Hello\";".data = "s:5:\"Hello\";".data :=
  claim_C2 "s:5:\"Hello\";".data (by
    intro d c hmem
    rw [show fixSpans "s:5:\"Hello\";".data = [Span.tok "5".data "Hello".data]
      from by decide] at hmem
    simp only [List.mem_singleton, Span.tok.injEq] at hmem
    obtain ⟨rfl, rfl⟩ := hmem
    decide)

/-- C3 counterexample: with `search = "x"` and `replace = "yy"`, neither of
which occurs in `s:999:"Hello";`, the PHP rewrite does not short-circuit: the
length-repair pass still runs (the terms' lengths differ) and rewrites the
stale declared length, returning `s:5:"Hello";` instead of the unchanged
input. -/
theorem claim_C3_counterexample :
    containsSub "s:999:\"Hello\";".data "x".data = false ∧
    containsSub "s:999:\"Hello\";".data "yy".data = false ∧
    phpReplace "s:999:\"Hello\";".data "x".data "yy".data = "s:5:\"Hello\";".data ∧
    phpReplace "s:999:\"Hello\";".data "x".data "yy".data ≠
      "s:999:\"Hello\";".data := by decide

/-- C3 (amended): the PHP serialized rewrite returns the text unchanged when
`search = replace`, and also when `search` does not occur in the text and the
two terms have equal length; but there is no short-circuit before length
rewriting — when the terms' lengths differ the repair pass runs even if
`search` does not occur, and may alter the text (see the counterexample). -/
theorem claim_C3 (t s r : List Char) :
    (s = r → phpReplace t s r = t) ∧
    (containsSub t s = false → s.length = r.length → phpReplace t s r = t) := by
  constructor
  · rintro rfl
    show (if s ≠ s ∧ s.length ≠ s.length then fixLengths (replaceAll t s s)
          else replaceAll t s s) = t
    rw [if_neg (by simp)]
    exact replaceAll_self t s
  · intro hc hlen
    show (if s ≠ r ∧ s.length ≠ r.length then fixLengths (replaceAll t s r)
          else replaceAll t s r) = t
    rw [if_neg (fun hco => hco.2 hlen)]
    exact replaceAll_not_contains r hc

/-- C3 witness: both amended cases at concrete inputs. -/
theorem claim_C3_witness :
    phpReplace "abc".data "x".data "x".data = "abc".data ∧
    phpReplace "abc".data "y".data "q".data = "abc".data :=
  ⟨(claim_C3 "abc".data "x".data "x".data).1 rfl,
   (claim_C3 "abc".data "y".data "q".data).2 (by decide) (by decide)⟩

/-- C10: when search and replace have equal length the PHP path is exactly
the plain literal substring replacement — the length-repair pass never
runs. -/
theorem claim_C10 (t s r : List Char) (h : s.length = r.length) :
    phpReplace t s r = replaceAll t s r := by
  show (if s ≠ r ∧ s.length ≠ r.length then fixLengths (replaceAll t s r)
        else replaceAll t s r) = replaceAll t s r
  rw [if_neg (fun hc => hc.2 h)]

/-- C10 witness. -/
theorem claim_C10_witness :
    ("ab".data.length = "cd".data.length) ∧
    phpReplace "s:999:\"Hello\";".data "ab".data "cd".data =
      replaceAll "s:999:\"Hello\";".data "ab".data "cd".data :=
  ⟨by decide, claim_C10 "s:999:\"Hello\";".data "ab".data "cd".data (by decide)⟩

/-- C10 counterexample to the claim's second half: with the equal-length pair
`s:9 → s:7` on `s:9:"x";`, the output's declared length prefix is `7`, not
byte-for-byte the input's `9` — the literal replacement itself can rewrite a
length prefix even though the repair pass never runs. -/
theorem claim_C10_counterexample :
    "s:9".data.length = "s:7".data.length ∧
    phpReplace "s:9:\"x\";".data "s:9".data "s:7".data = "s:7:\"x\";".data ∧
    fixSpans "s:9:\"x\";".data = [Span.tok "9".data "x".data] ∧
    fixSpans "s:7:\"x\";".data = [Span.tok "7".data "x".data] ∧
    "9".data ≠ "7".data := by decide

/-- C4: a `";` occurrence is accepted as the closing delimiter of a candidate
string token exactly when what follows it is the start of another valid token,
a structural closer `}`, or end-of-input (`validNext`); the boundary scan
returns the first such occurrence, rejects every earlier candidate precisely
because `validNext` fails there, reports `none` exactly when no candidate is
ever followed by a valid continuation, and in that case the scanner copies the
`s` through as literal content and continues, rather than failing. -/
theorem claim_C4 (l : List Char) :
    (∀ p e, findContentEnd l p = some e →
      p ≤ e ∧ ['"', ';'].isPrefixOf (l.drop e) = true ∧
      validNext (l.drop (e + 2)) = true ∧
      ∀ e', p ≤ e' → e' < e → ['"', ';'].isPrefixOf (l.drop e') = true →
        validNext (l.drop (e' + 2)) = false) ∧
    (∀ p, findContentEnd l p = none →
      ∀ e, p ≤ e → ['"', ';'].isPrefixOf (l.drop e) = true →
        validNext (l.drop (e + 2)) = false) ∧
    (∀ fuel i le, ∀ hi : i < l.length,
      ['s', ':'].isPrefixOf (l.drop i) = true →
      findCharFrom l ':' (i + 2) = some le →
      pyIntAccepts (slice l (i + 2) le) = true →
      ['"'].isPrefixOf (l.drop (le + 1)) = true →
      findContentEnd l (le + 2) = none →
      scanGo l (fuel + 1) i = Span.copy (l.get ⟨i, hi⟩) :: scanGo l fuel (i + 1)) := by
  refine ⟨fun p e h => findContentEnd_some_spec h,
          fun p h => findContentEnd_none_spec h, ?_⟩
  intro fuel i le hi hpre hfc hint hq hce
  rw [scanGo_succ, dif_pos hi, if_pos hpre, hfc]
  dsimp only
  rw [if_pos hint, if_pos hq, hce]

/-- C4 witness: an accepted boundary (in `s:2:"ab";`, the `";` at index 7 is
followed by end-of-input) and a copy-through (in `s:0:"a";x` the only `";`
candidate is followed by `x`, so the scanner copies the `s`). -/
theorem claim_C4_witness :
    validNext ("s:2:\"ab\";".data.drop (7 + 2)) = true ∧
    scanGo "s:0:\"a\";x".data 10 0 =
      Span.copy 's' :: scanGo "s:0:\"a\";x".data 9 1 :=
  ⟨((claim_C4 "s:2:\"ab\";".data).1 5 7 (by decide)).2.2.1,
   (claim_C4 "s:0:\"a\";x".data).2.2 9 0 3 (by decide) (by decide) (by decide)
     (by decide) (by decide) (by decide)⟩

/-! ## Claims C5, C6, C9: classifier, JSON keys, facade totality -/

/-- C5 counterexample: `i:5;\n` is classified as PHP-serialized although the
entire string (with its trailing newline) does not match any of the five
anchored shapes — Python's `$` tolerates one trailing newline. -/
theorem claim_C5_counterexample :
    isPhpSerialized "i:5;\n".data = true ∧
    specPhpShape "i:5;\n".data = false := by decide

/-- C5 (amended): the classifier reports PHP-serialized exactly when the
entire input matches one of the five anchored shapes, or does so after
removing a single trailing newline (Python `re` `$` semantics); and the
PHP-serialized check precedes the JSON attempt, so any string the classifier
accepts is dispatched to the PHP rewriter regardless of whether it also
parses as JSON. -/
theorem claim_C5 :
    (∀ v : List Char, isPhpSerialized v = true ↔
      (specPhpShape v = true ∨
        (v.getLast? = some '\n' ∧ specPhpShape v.dropLast = true))) ∧
    (∀ (v s r : List Char), isPhpSerialized v = true →
      safeReplace (some v) s r = phpReplace v s r) := by
  constructor
  · intro v
    cases v with
    | nil => decide
    | cons c cs =>
      show (!(c :: cs).isEmpty &&
        (matchesWithDollar matchArrayBody (c :: cs) ||
         matchesWithDollar matchStringBody (c :: cs) ||
         matchesWithDollar matchIntBody (c :: cs) ||
         matchesWithDollar matchBoolBody (c :: cs) ||
         matchesWithDollar matchObjectBody (c :: cs))) = true ↔ _
      simp only [matchesWithDollar, specPhpShape, List.isEmpty_cons, Bool.not_false,
        Bool.true_and, Bool.or_eq_true, Bool.and_eq_true, decide_eq_true_eq]
      tauto
  · intro v s r hphp
    have hne : v.isEmpty = false := by
      cases v with
      | nil => exact absurd hphp (by decide)
      | cons c cs => rfl
    show (if v.isEmpty = true then []
          else if isPhpSerialized v = true then phpReplace v s r
          else if isJsonData v = true then jsonReplaceData v s r
          else replaceAll v s r) = phpReplace v s r
    rw [if_neg (by simp [hne]), if_pos hphp]

/-- C5 witness: the classifier accepts `s:11:"Hello World";` and the facade
dispatches it to the PHP rewriter. -/
theorem claim_C5_witness :
    isPhpSerialized "s:11:\"Hello World\";".data = true ∧
    safeReplace (some "s:11:\"Hello World\";".data) "World".data "Universe".data =
      phpReplace "s:11:\"Hello World\";".data "World".data "Universe".data :=
  ⟨by decide, (claim_C5).2 "s:11:\"Hello World\";".data "World".data "Universe".data
    (by decide)⟩

/-- C6 counterexample: in `{"World":"a"}` the key `World` contains the search
term, yet the JSON rewrite leaves the output equal to the input — the key is
not substituted and `Universe` appears nowhere in the output. -/
theorem claim_C6_counterexample :
    containsSub "\x7b\"World\":\"a\"\x7d".data "World".data = true ∧
    jsonReplaceData "\x7b\"World\":\"a\"\x7d".data "World".data "Universe".data =
      "\x7b\"World\":\"a\"\x7d".data ∧
    containsSub (jsonReplaceData "\x7b\"World\":\"a\"\x7d".data "World".data
      "Universe".data) "Universe".data = false := by decide

/-- C6 (amended): the JSON rewriter substitutes only inside string values;
object keys are never substituted — every key of every object in the input
appears in the output unchanged. -/
theorem claim_C6 (s r : List Char) (kvs : List (List Char × Json)) :
    jsonReplace s r (Json.obj kvs) = Json.obj (jsonReplaceKVs s r kvs) ∧
    (jsonReplaceKVs s r kvs).map Prod.fst = kvs.map Prod.fst := by
  refine ⟨rfl, ?_⟩
  induction kvs with
  | nil => rfl
  | cons kv rest ih =>
    cases kv with
    | mk k v => simp [jsonReplaceKVs, ih]

/-- C9: the facade is total at its interface — `None` and the empty string
normalize to `""`, a recognized PHP shape goes to the PHP rewriter, a
JSON-parsable value goes to the JSON rewriter, and everything else degrades
to plain literal replacement; no input reaches any failing operation (every
fallible library call is modelled by `Option` and each `none` is handled). -/
theorem claim_C9 (s r : List Char) :
    safeReplace none s r = [] ∧
    safeReplace (some []) s r = [] ∧
    (∀ t : List Char, isPhpSerialized t = true →
      safeReplace (some t) s r = phpReplace t s r) ∧
    (∀ t : List Char, isPhpSerialized t = false → isJsonData t = true →
      safeReplace (some t) s r = jsonReplaceData t s r) ∧
    (∀ t : List Char, t ≠ [] → isPhpSerialized t = false → isJsonData t = false →
      safeReplace (some t) s r = replaceAll t s r) := by
  refine ⟨rfl, rfl, fun t hphp => (claim_C5).2 t s r hphp, ?_, ?_⟩
  · intro t hphp hjson
    have hne : t ≠ [] := by
      intro hnil
      subst hnil
      exact absurd hjson (by decide)
    have hne' : t.isEmpty = false := by cases t with | nil => exact absurd rfl hne | cons c cs => rfl
    show (if t.isEmpty = true then []
          else if isPhpSerialized t = true then phpReplace t s r
          else if isJsonData t = true then jsonReplaceData t s r
          else replaceAll t s r) = jsonReplaceData t s r
    rw [if_neg (by simp [hne']), if_neg (by simp [hphp]), if_pos hjson]
  · intro t hne hphp hjson
    have hne' : t.isEmpty = false := by cases t with | nil => exact absurd rfl hne | cons c cs => rfl
    show (if t.isEmpty = true then []
          else if isPhpSerialized t = true then phpReplace t s r
          else if isJsonData t = true then jsonReplaceData t s r
          else replaceAll t s r) = replaceAll t s r
    rw [if_neg (by simp [hne']), if_neg (by simp [hphp]), if_neg (by simp [hjson])]

/-- C9 witness: the malformed inputs of the spec's edge cases — `None`, the
empty string, broken serialized data — all return without failing, the last
by literal replacement. -/
theorem claim_C9_witness :
    safeReplace none "test".data "replacement".data = [] ∧
    safeReplace (some []) "test".data "replacement".data = [] ∧
    safeReplace (some "a:2:\x7bs:4:\"name\";".data) "name".data "nom".data =
      replaceAll "a:2:\x7bs:4:\"name\";".data "name".data "nom".data := by
  obtain ⟨h1, h2, _, _, h5⟩ := claim_C9 "test".data "replacement".data
  refine ⟨h1, h2, ?_⟩
  obtain ⟨_, _, _, _, h5'⟩ := claim_C9 "name".data "nom".data
  exact h5' "a:2:\x7bs:4:\"name\";".data (by decide) (by decide) (by decide)

/-! ## Claim C8: the JSON rewriter emits no newline or carriage return -/

lemma digitChar_isDigit : ∀ m, m < 10 → (Nat.digitChar m).isDigit = true := by decide

lemma natReprGo_digits : ∀ fuel n, ∀ c ∈ natReprGo fuel n, c.isDigit = true := by
  intro fuel
  induction fuel with
  | zero => intro n c hc; exact absurd hc (by simp [natReprGo])
  | succ fuel ih =>
    intro n c hc
    rw [natReprGo_succ] at hc
    by_cases h : n < 10
    · rw [if_pos h] at hc
      simp only [List.mem_singleton] at hc
      subst hc
      exact digitChar_isDigit n h
    · rw [if_neg h] at hc
      rcases List.mem_append.mp hc with hmem | hmem
      · exact ih (n / 10) c hmem
      · simp only [List.mem_singleton] at hmem
        subst hmem
        exact digitChar_isDigit _ (Nat.mod_lt _ (by norm_num))

lemma isDigit_ne_nl {c : Char} (h : c.isDigit = true) : ¬(c = '\n' ∨ c = '\r') := by
  rintro (rfl | rfl) <;> exact absurd h (by decide)

lemma intRepr_no_nl (n : Int) : ∀ c ∈ intRepr n, ¬(c = '\n' ∨ c = '\r') := by
  intro c hc
  unfold intRepr at hc
  by_cases h : n < 0
  · rw [if_pos h] at hc
    rcases List.mem_cons.mp hc with rfl | hmem
    · decide
    · exact isDigit_ne_nl (natReprGo_digits _ _ c hmem)
  · rw [if_neg h] at hc
    exact isDigit_ne_nl (natReprGo_digits _ _ c hc)

lemma hexDigit_ne_nl : ∀ m, m < 16 → ¬(hexDigit m = '\n' ∨ hexDigit m = '\r') := by decide

lemma escChar_no_nl (a : Char) : ∀ c ∈ escChar a, ¬(c = '\n' ∨ c = '\r') := by
  intro c hc
  unfold escChar at hc
  split at hc
  · exact (by decide : ∀ x ∈ (['\\', '"'] : List Char), ¬(x = '\n' ∨ x = '\r')) c hc
  · split at hc
    · exact (by decide : ∀ x ∈ (['\\', '\\'] : List Char), ¬(x = '\n' ∨ x = '\r')) c hc
    · split at hc
      · exact (by decide : ∀ x ∈ (['\\', 'n'] : List Char), ¬(x = '\n' ∨ x = '\r')) c hc
      · split at hc
        · exact (by decide : ∀ x ∈ (['\\', 'r'] : List Char), ¬(x = '\n' ∨ x = '\r')) c hc
        · split at hc
          · exact (by decide : ∀ x ∈ (['\\', 't'] : List Char), ¬(x = '\n' ∨ x = '\r')) c hc
          · split at hc
            · exact (by decide : ∀ x ∈ (['\\', 'b'] : List Char), ¬(x = '\n' ∨ x = '\r')) c hc
            · split at hc
              · exact (by decide : ∀ x ∈ (['\\', 'f'] : List Char), ¬(x = '\n' ∨ x = '\r')) c hc
              · split at hc
                · rename_i hlt
                  simp only [List.mem_cons, List.not_mem_nil, or_false] at hc
                  rcases hc with rfl | rfl | rfl | rfl | rfl | rfl
                  · decide
                  · decide
                  · decide
                  · decide
                  · exact hexDigit_ne_nl _ (by omega)
                  · exact hexDigit_ne_nl _ (Nat.mod_lt _ (by norm_num))
                · rename_i hge
                  simp only [List.mem_cons, List.not_mem_nil, or_false] at hc
                  subst hc
                  rintro (rfl | rfl)
                  · exact hge (by decide)
                  · exact hge (by decide)

lemma escStr_no_nl (s : List Char) : ∀ c ∈ escStr s, ¬(c = '\n' ∨ c = '\r') := by
  intro c hc
  obtain ⟨a, _, hmem⟩ := List.mem_flatMap.mp hc
  exact escChar_no_nl a c hmem

/-- No rendering of a JSON value contains a newline or carriage return. -/
lemma dumps_no_nl_all : ∀ n : Nat,
    (∀ j : Json, sizeOf j ≤ n → ∀ c ∈ dumps j, ¬(c = '\n' ∨ c = '\r')) ∧
    (∀ xs : List Json, sizeOf xs ≤ n → ∀ c ∈ dumpsItems xs, ¬(c = '\n' ∨ c = '\r')) ∧
    (∀ kvs : List (List Char × Json), sizeOf kvs ≤ n →
      ∀ c ∈ dumpsMembers kvs, ¬(c = '\n' ∨ c = '\r')) := by
  intro n
  induction n using Nat.strong_induction_on with
  | _ n ih =>
    refine ⟨?_, ?_, ?_⟩
    · intro j hsz c hc
      cases j with
      | null =>
        exact (by decide : ∀ x ∈ (['n', 'u', 'l', 'l'] : List Char),
          ¬(x = '\n' ∨ x = '\r')) c hc
      | bool b =>
        cases b with
        | true =>
          exact (by decide : ∀ x ∈ (['t', 'r', 'u', 'e'] : List Char),
            ¬(x = '\n' ∨ x = '\r')) c hc
        | false =>
          exact (by decide : ∀ x ∈ (['f', 'a', 'l', 's', 'e'] : List Char),
            ¬(x = '\n' ∨ x = '\r')) c hc
      | num m => exact intRepr_no_nl m c hc
      | str st =>
        rw [show dumps (.str st) = '"' :: escStr st ++ ['"'] from rfl] at hc
        rcases List.mem_cons.mp hc with rfl | hmem
        · decide
        · rcases List.mem_append.mp hmem with hmem2 | hmem2
          · exact escStr_no_nl st c hmem2
          · simp only [List.mem_singleton] at hmem2; subst hmem2; decide
      | arr xs =>
        rw [show dumps (.arr xs) = '[' :: dumpsItems xs ++ [']'] from rfl] at hc
        have hxs : sizeOf xs < n := by
          have : sizeOf (Json.arr xs) = 1 + sizeOf xs := by simp
          omega
        rcases List.mem_cons.mp hc with rfl | hmem
        · decide
        · rcases List.mem_append.mp hmem with hmem2 | hmem2
          · exact (ih (sizeOf xs) hxs).2.1 xs le_rfl c hmem2
          · simp only [List.mem_singleton] at hmem2; subst hmem2; decide
      | obj kvs =>
        rw [show dumps (.obj kvs) = '{' :: dumpsMembers kvs ++ ['}'] from rfl] at hc
        have hkvs : sizeOf kvs < n := by
          have : sizeOf (Json.obj kvs) = 1 + sizeOf kvs := by simp
          omega
        rcases List.mem_cons.mp hc with rfl | hmem
        · decide
        · rcases List.mem_append.mp hmem with hmem2 | hmem2
          · exact (ih (sizeOf kvs) hkvs).2.2 kvs le_rfl c hmem2
          · simp only [List.mem_singleton] at hmem2; subst hmem2; decide
    · intro xs hsz c hc
      match xs with
      | [] => exact absurd hc (by simp [dumpsItems])
      | [x] =>
        have hx : sizeOf x < n := by
          have : sizeOf ([x] : List Json) = 1 + sizeOf x + sizeOf ([] : List Json) := by simp
          have h0 : sizeOf ([] : List Json) = 1 := by simp
          omega
        exact (ih (sizeOf x) hx).1 x le_rfl c hc
      | x :: y :: rest =>
        rw [show dumpsItems (x :: y :: rest) = dumps x ++ ',' :: dumpsItems (y :: rest)
          from rfl] at hc
        have hszc : sizeOf (x :: y :: rest) = 1 + sizeOf x + sizeOf (y :: rest) := by simp
        rcases List.mem_append.mp hc with hmem | hmem
        · exact (ih (sizeOf x) (by omega)).1 x le_rfl c hmem
        · rcases List.mem_cons.mp hmem with rfl | hmem2
          · decide
          · exact (ih (sizeOf (y :: rest)) (by omega)).2.1 (y :: rest) le_rfl c hmem2
    · intro kvs hsz c hc
      match kvs with
      | [] => exact absurd hc (by simp [dumpsMembers])
      | [(k, v)] =>
        rw [show dumpsMembers [(k, v)] = '"' :: escStr k ++ '"' :: ':' :: dumps v
          from rfl] at hc
        have hszc : sizeOf ([(k, v)] : List (List Char × Json)) =
            1 + (1 + sizeOf k + sizeOf v) + 1 := by simp
        rcases List.mem_cons.mp hc with rfl | hmem
        · decide
        · rcases List.mem_append.mp hmem with hmem2 | hmem2
          · exact escStr_no_nl k c hmem2
          · rcases List.mem_cons.mp hmem2 with rfl | hmem3
            · decide
            · rcases List.mem_cons.mp hmem3 with rfl | hmem4
              · decide
              · exact (ih (sizeOf v) (by omega)).1 v le_rfl c hmem4
      | (k, v) :: m :: rest =>
        rw [show dumpsMembers ((k, v) :: m :: rest) =
            '"' :: escStr k ++ '"' :: ':' :: dumps v ++ ',' :: dumpsMembers (m :: rest)
          from rfl] at hc
        have hszc : sizeOf ((k, v) :: m :: rest) =
            1 + (1 + sizeOf k + sizeOf v) + sizeOf (m :: rest) := by simp
        simp only [List.mem_cons, List.mem_append] at hc
        rcases hc with ((rfl | hc) | rfl | rfl | hc) | rfl | hc
        · decide
        · exact escStr_no_nl k c hc
        · decide
        · decide
        · exact (ih (sizeOf v) (by omega)).1 v le_rfl c hc
        · decide
        · exact (ih (sizeOf (m :: rest)) (by omega)).2.2 (m :: rest) le_rfl c hc

/-- C8: for every input accepted by the JSON path, the rewriter's output
contains no newline and no carriage-return characters — even when the input
or the replacement term contains them inside string values (they are emitted
as `\n`/`\r` escapes). -/
theorem claim_C8 (t s r : List Char) (h : isJsonData t = true) :
    (jsonReplaceData t s r).all (fun c => !(c == '\n') && !(c == '\r')) = true := by
  cases hp : parseJson t with
  | none => exact absurd h (by simp [isJsonData, hp])
  | some j =>
    have hout : jsonReplaceData t s r = dumps (jsonReplace s r j) := by
      unfold jsonReplaceData
      rw [hp]
    rw [hout, List.all_eq_true]
    intro c hc
    have hno := (dumps_no_nl_all (sizeOf (jsonReplace s r j))).1 _ le_rfl c hc
    push_neg at hno
    simp only [Bool.and_eq_true, Bool.not_eq_true', beq_eq_false_iff_ne]
    exact hno

/-- C8 witness: the replacement term itself is a newline; the output still
contains none (it is emitted as the escape `\n`). -/
theorem claim_C8_witness :
    isJsonData "\x7b\"a\":\"x\\ny\"\x7d".data = true ∧
    (jsonReplaceData "\x7b\"a\":\"x\\ny\"\x7d".data "x".data "\n".data).all
      (fun c => !(c == '\n') && !(c == '\r')) = true :=
  ⟨by decide, claim_C8 "\x7b\"a\":\"x\\ny\"\x7d".data "x".data "\n".data (by decide)⟩

/-! ## Claim C7: round trip of the JSON rewrite

The serializer `dumps` and parser are related by a round-trip lemma: the
rendering of any well-formed tree (object key lists duplicate-free, as the
parser produces) parses back to exactly that tree. -/

lemma isDigit_ne {c d : Char} (h : c.isDigit = true) (hd : d.isDigit = false) :
    c ≠ d := by
  intro heq
  subst heq
  rw [h] at hd
  cases hd

lemma isDigit_not_ws {c : Char} (h : c.isDigit = true) : jsonWS c = false := by
  cases hw : jsonWS c with
  | false => rfl
  | true =>
    exfalso
    unfold jsonWS at hw
    simp only [Bool.or_eq_true, decide_eq_true_eq] at hw
    rcases hw with ((rfl | rfl) | rfl) | rfl <;> exact absurd h (by decide)

lemma skipWS_cons_false {c : Char} (l : List Char) (h : jsonWS c = false) :
    skipWS (c :: l) = c :: l := by
  unfold skipWS
  rw [List.dropWhile_cons, h]
  rfl

lemma digitChar_ne_zero : ∀ m, m < 10 → 0 < m → Nat.digitChar m ≠ '0' := by decide

lemma natReprGo_head : ∀ fuel n, n < fuel →
    ∃ c cs, natReprGo fuel n = c :: cs ∧ c.isDigit = true ∧ (0 < n → c ≠ '0') := by
  intro fuel
  induction fuel using Nat.strong_induction_on with
  | _ fuel ih =>
    intro n hn
    obtain ⟨g, rfl⟩ : ∃ g, fuel = g + 1 := ⟨fuel - 1, by omega⟩
    rw [natReprGo_succ]
    by_cases h : n < 10
    · rw [if_pos h]
      exact ⟨Nat.digitChar n, [], rfl, digitChar_isDigit n h, fun h0 => digitChar_ne_zero n h h0⟩
    · rw [if_neg h]
      have hdiv : n / 10 < n := Nat.div_lt_self (by omega) (by norm_num)
      obtain ⟨c, cs, heq, hdig, hz⟩ := ih g (by omega) (n / 10) (by omega)
      refine ⟨c, cs ++ [Nat.digitChar (n % 10)], ?_, hdig, fun _ => hz (by omega)⟩
      rw [heq]
      rfl

lemma natRepr_head (n : Nat) :
    ∃ c cs, natRepr n = c :: cs ∧ c.isDigit = true ∧ (0 < n → c ≠ '0') :=
  natReprGo_head (n + 1) n (by omega)

lemma noNumExt_head_digit {l : List Char} (h : noNumExt l = true) :
    ∀ c rest', l = c :: rest' → c.isDigit = false := by
  intro c rest' heq
  subst heq
  unfold noNumExt at h
  simp only [Bool.not_eq_true', Bool.or_eq_false_iff, decide_eq_false_iff_not] at h
  exact h.1.1.1

lemma noNumExt_floatFollows {l : List Char} (h : noNumExt l = true) :
    floatFollows l = false := by
  cases l with
  | nil => rfl
  | cons c rest =>
    unfold noNumExt at h
    unfold floatFollows
    simp only [Bool.not_eq_true', Bool.or_eq_false_iff, decide_eq_false_iff_not] at h
    simp [h.1.1.2, h.1.2, h.2]

lemma takeWhile_digits_append {A B : List Char} (hA : ∀ c ∈ A, c.isDigit = true)
    (hB : ∀ c rest', B = c :: rest' → c.isDigit = false) :
    (A ++ B).takeWhile Char.isDigit = A ∧ (A ++ B).dropWhile Char.isDigit = B := by
  induction A with
  | nil =>
    simp only [List.nil_append]
    cases B with
    | nil => exact ⟨rfl, rfl⟩
    | cons c rest =>
      constructor
      · rw [List.takeWhile_cons, hB c rest rfl]
        simp
      · rw [List.dropWhile_cons, hB c rest rfl]
        simp
  | cons a A' ih =>
    have ha : a.isDigit = true := hA a (List.mem_cons_self a A')
    obtain ⟨h1, h2⟩ := ih (fun c hc => hA c (List.mem_cons_of_mem a hc))
    constructor
    · rw [List.cons_append, List.takeWhile_cons, ha, h1]
      simp
    · rw [List.cons_append, List.dropWhile_cons, ha, h2]
      simp

/-- Parsing the decimal rendering of an integer recovers it, provided the
following input cannot extend the numeral. -/
lemma parseNumber_intRepr (n : Int) (rest : List Char) (h : noNumExt rest = true) :
    parseNumber (intRepr n ++ rest) = some (n, rest) := by
  have hff : floatFollows rest = false := noNumExt_floatFollows h
  have hBd := noNumExt_head_digit h
  by_cases hneg : n < 0
  · have hm : 0 < (-n).toNat := by omega
    obtain ⟨c, cs, heq, hdig, hz⟩ := natRepr_head (-n).toNat
    rw [show intRepr n = '-' :: natRepr (-n).toNat from by unfold intRepr; rw [if_pos hneg]]
    rw [heq, List.cons_append, List.cons_append]
    rw [show parseNumber ('-' :: (c :: (cs ++ rest))) =
      (parseIntPart (c :: (cs ++ rest))).bind fun p =>
        if floatFollows p.2 then none else some (-(p.1 : Int), p.2) from by
      unfold parseNumber; dsimp only; rw [if_pos rfl]]
    have hc0 : c ≠ '0' := hz hm
    rw [show parseIntPart (c :: (cs ++ rest)) =
        some (readNat ((c :: (cs ++ rest)).takeWhile Char.isDigit),
              (c :: (cs ++ rest)).dropWhile Char.isDigit) from by
      unfold parseIntPart
      dsimp only
      rw [if_neg (by simpa using hc0), if_pos hdig]]
    have hall : ∀ x ∈ c :: cs, x.isDigit = true := by
      rw [← heq]
      intro x hx
      exact natReprGo_digits _ _ x hx
    have htw := takeWhile_digits_append (A := c :: cs) (B := rest) hall hBd
    rw [show (c :: (cs ++ rest)) = (c :: cs) ++ rest from rfl, htw.1, htw.2, ← heq]
    rw [Option.some_bind, hff]
    simp only [Bool.false_eq_true, if_false]
    rw [readNat_natRepr]
    congr 2
    omega
  · by_cases h0 : n = 0
    · subst h0
      rw [show intRepr 0 = ['0'] from rfl]
      rw [show (['0'] : List Char) ++ rest = '0' :: rest from rfl]
      rw [show parseNumber ('0' :: rest) =
        (parseIntPart ('0' :: rest)).bind fun p =>
          if floatFollows p.2 then none else some ((p.1 : Int), p.2) from by
        unfold parseNumber; dsimp only; rw [if_neg (by decide)]]
      rw [show parseIntPart ('0' :: rest) = some (0, rest) from by
        unfold parseIntPart; dsimp only; rw [if_pos rfl]]
      rw [Option.some_bind, hff]
      rfl
    · have hm : 0 < n.toNat := by omega
      obtain ⟨c, cs, heq, hdig, hz⟩ := natRepr_head n.toNat
      have hc0 : c ≠ '0' := hz hm
      have hcm : c ≠ '-' := isDigit_ne hdig (by decide)
      rw [show intRepr n = natRepr n.toNat from by unfold intRepr; rw [if_neg hneg]]
      rw [heq, List.cons_append]
      rw [show parseNumber (c :: (cs ++ rest)) =
        (parseIntPart (c :: (cs ++ rest))).bind fun p =>
          if floatFollows p.2 then none else some ((p.1 : Int), p.2) from by
        unfold parseNumber; dsimp only; rw [if_neg hcm]]
      rw [show parseIntPart (c :: (cs ++ rest)) =
          some (readNat ((c :: (cs ++ rest)).takeWhile Char.isDigit),
                (c :: (cs ++ rest)).dropWhile Char.isDigit) from by
        unfold parseIntPart
        dsimp only
        rw [if_neg (by simpa using hc0), if_pos hdig]]
      have hall : ∀ x ∈ c :: cs, x.isDigit = true := by
        rw [← heq]
        intro x hx
        exact natReprGo_digits _ _ x hx
      have htw := takeWhile_digits_append (A := c :: cs) (B := rest) hall hBd
      rw [show (c :: (cs ++ rest)) = (c :: cs) ++ rest from rfl, htw.1, htw.2, ← heq]
      rw [Option.some_bind, hff]
      simp only [Bool.false_eq_true, if_false]
      rw [readNat_natRepr]
      congr 2
      omega

lemma hexVal_hexDigit : ∀ m, m < 16 → hexVal (hexDigit m) = some m := by decide

/-- Equation lemmas for `parseStringBody` on the shapes `escChar` emits. -/
lemma psb_quote (X : List Char) : parseStringBody ('"' :: X) = some ([], X) := by
  conv_lhs => rw [parseStringBody.eq_def]
  dsimp only
  rw [if_pos rfl]

lemma psb_step_esc (X : List Char) : parseStringBody ('\\' :: X) = parseEscape X := by
  conv_lhs => rw [parseStringBody.eq_def]
  dsimp only
  rw [if_neg (by decide), if_pos rfl]

lemma psb_esc_quote (X : List Char) :
    parseStringBody ('\\' :: '"' :: X) =
      (parseStringBody X).map fun p => ('"' :: p.1, p.2) := by
  rw [psb_step_esc, parseEscape.eq_def]
  dsimp only
  rw [if_pos rfl]

lemma psb_esc_backslash (X : List Char) :
    parseStringBody ('\\' :: '\\' :: X) =
      (parseStringBody X).map fun p => ('\\' :: p.1, p.2) := by
  rw [psb_step_esc, parseEscape.eq_def]
  dsimp only
  rw [if_neg (by decide), if_pos rfl]

lemma psb_esc_b (X : List Char) :
    parseStringBody ('\\' :: 'b' :: X) =
      (parseStringBody X).map fun p => (Char.ofNat 8 :: p.1, p.2) := by
  rw [psb_step_esc, parseEscape.eq_def]
  dsimp only
  rw [if_neg (by decide), if_neg (by decide), if_neg (by decide), if_pos rfl]

lemma psb_esc_f (X : List Char) :
    parseStringBody ('\\' :: 'f' :: X) =
      (parseStringBody X).map fun p => (Char.ofNat 12 :: p.1, p.2) := by
  rw [psb_step_esc, parseEscape.eq_def]
  dsimp only
  rw [if_neg (by decide), if_neg (by decide), if_neg (by decide), if_neg (by decide),
    if_pos rfl]

lemma psb_esc_n (X : List Char) :
    parseStringBody ('\\' :: 'n' :: X) =
      (parseStringBody X).map fun p => ('\n' :: p.1, p.2) := by
  rw [psb_step_esc, parseEscape.eq_def]
  dsimp only
  rw [if_neg (by decide), if_neg (by decide), if_neg (by decide), if_neg (by decide),
    if_neg (by decide), if_pos rfl]

lemma psb_esc_r (X : List Char) :
    parseStringBody ('\\' :: 'r' :: X) =
      (parseStringBody X).map fun p => ('\r' :: p.1, p.2) := by
  rw [psb_step_esc, parseEscape.eq_def]
  dsimp only
  rw [if_neg (by decide), if_neg (by decide), if_neg (by decide), if_neg (by decide),
    if_neg (by decide), if_neg (by decide), if_pos rfl]

lemma psb_esc_t (X : List Char) :
    parseStringBody ('\\' :: 't' :: X) =
      (parseStringBody X).map fun p => ('\t' :: p.1, p.2) := by
  rw [psb_step_esc, parseEscape.eq_def]
  dsimp only
  rw [if_neg (by decide), if_neg (by decide), if_neg (by decide), if_neg (by decide),
    if_neg (by decide), if_neg (by decide), if_neg (by decide), if_pos rfl]

lemma psb_esc_u (X : List Char) :
    parseStringBody ('\\' :: 'u' :: X) = parseUnicode X := by
  rw [psb_step_esc, parseEscape.eq_def]
  dsimp only
  rw [if_neg (by decide), if_neg (by decide), if_neg (by decide), if_neg (by decide),
    if_neg (by decide), if_neg (by decide), if_neg (by decide), if_neg (by decide),
    if_pos rfl]

lemma psb_plain (c : Char) (X : List Char) (h1 : ¬(c = '"')) (h2 : ¬(c = '\\'))
    (h3 : ¬(c.toNat < 0x20)) :
    parseStringBody (c :: X) = (parseStringBody X).map fun p => (c :: p.1, p.2) := by
  conv_lhs => rw [parseStringBody.eq_def]
  dsimp only
  rw [if_neg h1, if_neg h2, if_neg h3]

/-- Parsing back an escaped string body recovers the original characters. -/
lemma parseStringBody_roundtrip : ∀ (s rest : List Char),
    parseStringBody (escStr s ++ '"' :: rest) = some (s, rest) := by
  intro s
  induction s with
  | nil =>
    intro rest
    rw [show escStr [] = [] from rfl, List.nil_append, psb_quote]
  | cons a s' ih =>
    intro rest
    rw [show escStr (a :: s') = escChar a ++ escStr s' from rfl, List.append_assoc]
    unfold escChar
    by_cases h1 : a = '"'
    · subst h1
      rw [if_pos rfl]
      rw [show (['\\', '"'] : List Char) ++ (escStr s' ++ '"' :: rest) =
          '\\' :: '"' :: (escStr s' ++ '"' :: rest) from rfl, psb_esc_quote, ih]
      rfl
    · rw [if_neg h1]
      by_cases h2 : a = '\\'
      · subst h2
        rw [if_pos rfl]
        rw [show (['\\', '\\'] : List Char) ++ (escStr s' ++ '"' :: rest) =
            '\\' :: '\\' :: (escStr s' ++ '"' :: rest) from rfl, psb_esc_backslash, ih]
        rfl
      · rw [if_neg h2]
        by_cases h3 : a = '\n'
        · subst h3
          rw [if_pos rfl]
          rw [show (['\\', 'n'] : List Char) ++ (escStr s' ++ '"' :: rest) =
              '\\' :: 'n' :: (escStr s' ++ '"' :: rest) from rfl, psb_esc_n, ih]
          rfl
        · rw [if_neg h3]
          by_cases h4 : a = '\r'
          · subst h4
            rw [if_pos rfl]
            rw [show (['\\', 'r'] : List Char) ++ (escStr s' ++ '"' :: rest) =
                '\\' :: 'r' :: (escStr s' ++ '"' :: rest) from rfl, psb_esc_r, ih]
            rfl
          · rw [if_neg h4]
            by_cases h5 : a = '\t'
            · subst h5
              rw [if_pos rfl]
              rw [show (['\\', 't'] : List Char) ++ (escStr s' ++ '"' :: rest) =
                  '\\' :: 't' :: (escStr s' ++ '"' :: rest) from rfl, psb_esc_t, ih]
              rfl
            · rw [if_neg h5]
              by_cases h6 : a.toNat = 8
              · rw [if_pos h6]
                have ha : Char.ofNat 8 = a := by rw [← h6, Char.ofNat_toNat]
                rw [show (['\\', 'b'] : List Char) ++ (escStr s' ++ '"' :: rest) =
                    '\\' :: 'b' :: (escStr s' ++ '"' :: rest) from rfl, psb_esc_b, ih, ha]
                rfl
              · rw [if_neg h6]
                by_cases h7 : a.toNat = 12
                · rw [if_pos h7]
                  have ha : Char.ofNat 12 = a := by rw [← h7, Char.ofNat_toNat]
                  rw [show (['\\', 'f'] : List Char) ++ (escStr s' ++ '"' :: rest) =
                      '\\' :: 'f' :: (escStr s' ++ '"' :: rest) from rfl, psb_esc_f, ih,
                    ha]
                  rfl
                · rw [if_neg h7]
                  by_cases h8 : a.toNat < 0x20
                  · rw [if_pos h8]
                    rw [show (['\\', 'u', '0', '0', hexDigit (a.toNat / 16),
                          hexDigit (a.toNat % 16)] : List Char) ++
                          (escStr s' ++ '"' :: rest) =
                        '\\' :: 'u' :: '0' :: '0' :: hexDigit (a.toNat / 16) ::
                          hexDigit (a.toNat % 16) :: (escStr s' ++ '"' :: rest) from rfl]
                    rw [psb_esc_u, parseUnicode.eq_def]
                    dsimp only
                    rw [show hexVal '0' = some 0 from rfl, Option.some_bind,
                      Option.some_bind, hexVal_hexDigit _ (by omega), Option.some_bind,
                      hexVal_hexDigit _ (Nat.mod_lt _ (by norm_num)), Option.some_bind]
                    rw [if_neg (by omega), if_neg (by omega), ih]
                    have hn : ((0 * 16 + 0) * 16 + a.toNat / 16) * 16 + a.toNat % 16 =
                        a.toNat := by omega
                    rw [hn, Char.ofNat_toNat]
                    rfl
                  · rw [if_neg h8]
                    rw [show ([a] : List Char) ++ (escStr s' ++ '"' :: rest) =
                        a :: (escStr s' ++ '"' :: rest) from rfl,
                      psb_plain a _ h1 h2 h8, ih]
                    rfl

lemma jsonReplaceKVs_keys (s r : List Char) :
    ∀ kvs : List (List Char × Json),
      (jsonReplaceKVs s r kvs).map Prod.fst = kvs.map Prod.fst := by
  intro kvs
  induction kvs with
  | nil => rfl
  | cons kv rest ih =>
    cases kv with
    | mk k v =>
      rw [show jsonReplaceKVs s r ((k, v) :: rest) =
          (k, jsonReplace s r v) :: jsonReplaceKVs s r rest from rfl]
      simp [ih]

/-- `jsonReplace` preserves shape, well-formedness, and maps string leaves by
literal replacement (joint strong induction on the tree size). -/
lemma jsonReplace_facts (s r : List Char) : ∀ n : Nat,
    (∀ j : Json, sizeOf j ≤ n →
      jshape (jsonReplace s r j) = jshape j ∧
      (jsonWF j = true → jsonWF (jsonReplace s r j) = true) ∧
      jstrings (jsonReplace s r j) = (jstrings j).map (fun st => replaceAll st s r)) ∧
    (∀ xs : List Json, sizeOf xs ≤ n →
      jshapeList (jsonReplaceList s r xs) = jshapeList xs ∧
      (jsonWFList xs = true → jsonWFList (jsonReplaceList s r xs) = true) ∧
      jstringsList (jsonReplaceList s r xs) =
        (jstringsList xs).map (fun st => replaceAll st s r)) ∧
    (∀ kvs : List (List Char × Json), sizeOf kvs ≤ n →
      jshapeKVs (jsonReplaceKVs s r kvs) = jshapeKVs kvs ∧
      (jsonWFKVs kvs = true → jsonWFKVs (jsonReplaceKVs s r kvs) = true) ∧
      jstringsKVs (jsonReplaceKVs s r kvs) =
        (jstringsKVs kvs).map (fun st => replaceAll st s r)) := by
  intro n
  induction n using Nat.strong_induction_on with
  | _ n ih =>
    refine ⟨?_, ?_, ?_⟩
    · intro j hsz
      cases j with
      | null => exact ⟨rfl, fun _ => rfl, rfl⟩
      | bool b => exact ⟨rfl, fun _ => rfl, rfl⟩
      | num m => exact ⟨rfl, fun _ => rfl, rfl⟩
      | str st => exact ⟨rfl, fun _ => rfl, rfl⟩
      | arr xs =>
        have hxs : sizeOf xs < n := by
          have : sizeOf (Json.arr xs) = 1 + sizeOf xs := by simp
          omega
        obtain ⟨h1, h2, h3⟩ := (ih (sizeOf xs) hxs).2.1 xs le_rfl
        refine ⟨?_, ?_, ?_⟩
        · rw [show jsonReplace s r (.arr xs) = .arr (jsonReplaceList s r xs) from rfl]
          rw [show ∀ ys, jshape (Json.arr ys) = .arr (jshapeList ys) from fun _ => rfl,
            h1]
          rfl
        · intro hwf
          rw [show jsonReplace s r (.arr xs) = .arr (jsonReplaceList s r xs) from rfl]
          rw [show ∀ ys, jsonWF (Json.arr ys) = jsonWFList ys from fun _ => rfl]
          exact h2 hwf
        · rw [show jsonReplace s r (.arr xs) = .arr (jsonReplaceList s r xs) from rfl]
          rw [show ∀ ys, jstrings (Json.arr ys) = jstringsList ys from fun _ => rfl, h3]
          rw [show ∀ ys, jstrings (Json.arr ys) = jstringsList ys from fun _ => rfl]
      | obj kvs =>
        have hkvs : sizeOf kvs < n := by
          have : sizeOf (Json.obj kvs) = 1 + sizeOf kvs := by simp
          omega
        obtain ⟨h1, h2, h3⟩ := (ih (sizeOf kvs) hkvs).2.2 kvs le_rfl
        refine ⟨?_, ?_, ?_⟩
        · rw [show jsonReplace s r (.obj kvs) = .obj (jsonReplaceKVs s r kvs) from rfl]
          rw [show ∀ ys, jshape (Json.obj ys) = .obj (jshapeKVs ys) from fun _ => rfl, h1]
          rfl
        · intro hwf
          rw [show jsonReplace s r (.obj kvs) = .obj (jsonReplaceKVs s r kvs) from rfl]
          rw [show ∀ ys, jsonWF (Json.obj ys) =
              (keysNodup (ys.map Prod.fst) && jsonWFKVs ys) from fun _ => rfl] at hwf ⊢
          rw [jsonReplaceKVs_keys]
          simp only [Bool.and_eq_true] at hwf ⊢
          exact ⟨hwf.1, h2 hwf.2⟩
        · rw [show jsonReplace s r (.obj kvs) = .obj (jsonReplaceKVs s r kvs) from rfl]
          rw [show ∀ ys, jstrings (Json.obj ys) = jstringsKVs ys from fun _ => rfl, h3]
          rw [show ∀ ys, jstrings (Json.obj ys) = jstringsKVs ys from fun _ => rfl]
    · intro xs hsz
      cases xs with
      | nil => exact ⟨rfl, fun _ => rfl, rfl⟩
      | cons x rest =>
        have hszc : sizeOf (x :: rest) = 1 + sizeOf x + sizeOf rest := by simp
        obtain ⟨a1, a2, a3⟩ := (ih (sizeOf x) (by omega)).1 x le_rfl
        obtain ⟨b1, b2, b3⟩ := (ih (sizeOf rest) (by omega)).2.1 rest le_rfl
        rw [show jsonReplaceList s r (x :: rest) =
            jsonReplace s r x :: jsonReplaceList s r rest from rfl]
        refine ⟨?_, ?_, ?_⟩
        · rw [show ∀ y ys, jshapeList (y :: ys) = jshape y :: jshapeList ys
            from fun _ _ => rfl, a1, b1]
          rw [show ∀ y ys, jshapeList (y :: ys) = jshape y :: jshapeList ys
            from fun _ _ => rfl]
        · intro hwf
          rw [show ∀ y ys, jsonWFList (y :: ys) = (jsonWF y && jsonWFList ys)
            from fun _ _ => rfl] at hwf ⊢
          simp only [Bool.and_eq_true] at hwf ⊢
          exact ⟨a2 hwf.1, b2 hwf.2⟩
        · rw [show ∀ y ys, jstringsList (y :: ys) = jstrings y ++ jstringsList ys
            from fun _ _ => rfl, a3, b3]
          rw [show ∀ y ys, jstringsList (y :: ys) = jstrings y ++ jstringsList ys
            from fun _ _ => rfl, List.map_append]
    · intro kvs hsz
      cases kvs with
      | nil => exact ⟨rfl, fun _ => rfl, rfl⟩
      | cons kv rest =>
        cases kv with
        | mk k v =>
          have hszc : sizeOf ((k, v) :: rest) = 1 + (1 + sizeOf k + sizeOf v) + sizeOf rest := by
            simp
          obtain ⟨a1, a2, a3⟩ := (ih (sizeOf v) (by omega)).1 v le_rfl
          obtain ⟨b1, b2, b3⟩ := (ih (sizeOf rest) (by omega)).2.2 rest le_rfl
          rw [show jsonReplaceKVs s r ((k, v) :: rest) =
              (k, jsonReplace s r v) :: jsonReplaceKVs s r rest from rfl]
          refine ⟨?_, ?_, ?_⟩
          · rw [show ∀ k1 v1 ys, jshapeKVs ((k1, v1) :: ys) =
                (k1, jshape v1) :: jshapeKVs ys from fun _ _ _ => rfl, a1, b1]
            rw [show ∀ k1 v1 ys, jshapeKVs ((k1, v1) :: ys) =
                (k1, jshape v1) :: jshapeKVs ys from fun _ _ _ => rfl]
          · intro hwf
            rw [show ∀ k1 v1 ys, jsonWFKVs ((k1, v1) :: ys) =
                (jsonWF v1 && jsonWFKVs ys) from fun _ _ _ => rfl] at hwf ⊢
            simp only [Bool.and_eq_true] at hwf ⊢
            exact ⟨a2 hwf.1, b2 hwf.2⟩
          · rw [show ∀ k1 v1 ys, jstringsKVs ((k1, v1) :: ys) =
                jstrings v1 ++ jstringsKVs ys from fun _ _ _ => rfl, a3, b3]
            rw [show ∀ k1 v1 ys, jstringsKVs ((k1, v1) :: ys) =
                jstrings v1 ++ jstringsKVs ys from fun _ _ _ => rfl, List.map_append]

/-! ### Python `dict` lemmas -/

lemma insertKV_not_mem : ∀ (acc : List (List Char × Json)) (k : List Char) (v : Json),
    k ∉ acc.map Prod.fst → insertKV acc k v = acc ++ [(k, v)] := by
  intro acc
  induction acc with
  | nil => intro k v _; rfl
  | cons kv rest ih =>
    intro k v h
    cases kv with
    | mk k' v' =>
      simp only [List.map_cons, List.mem_cons] at h
      push_neg at h
      rw [show insertKV ((k', v') :: rest) k v =
          if k' = k then (k', v) :: rest else (k', v') :: insertKV rest k v from rfl]
      rw [if_neg (fun he => h.1 he.symm), ih k v h.2]
      rfl

lemma dictOf_go_id : ∀ (kvs acc : List (List Char × Json)),
    keysNodup (kvs.map Prod.fst) = true →
    (∀ k ∈ kvs.map Prod.fst, k ∉ acc.map Prod.fst) →
    kvs.foldl (fun a kv => insertKV a kv.1 kv.2) acc = acc ++ kvs := by
  intro kvs
  induction kvs with
  | nil => intro acc _ _; simp
  | cons kv rest ih =>
    intro acc hnd hdisj
    cases kv with
    | mk k v =>
      simp only [List.map_cons] at hnd hdisj
      rw [show keysNodup (k :: rest.map Prod.fst) =
          (!(decide (k ∈ rest.map Prod.fst)) && keysNodup (rest.map Prod.fst))
        from rfl] at hnd
      simp only [Bool.and_eq_true, Bool.not_eq_true', decide_eq_false_iff_not] at hnd
      rw [List.foldl_cons]
      rw [show insertKV acc (k, v).1 (k, v).2 = insertKV acc k v from rfl]
      rw [insertKV_not_mem acc k v (hdisj k (List.mem_cons_self _ _))]
      have hdisj2 : ∀ k' ∈ rest.map Prod.fst, k' ∉ (acc ++ [(k, v)]).map Prod.fst := by
        intro k' hk'
        simp only [List.map_append, List.mem_append, List.map_cons, List.map_nil,
          List.mem_singleton]
        push_neg
        refine ⟨hdisj k' (List.mem_cons_of_mem _ hk'), ?_⟩
        intro he
        exact hnd.1 (he ▸ hk')
      rw [ih (acc ++ [(k, v)]) hnd.2 hdisj2, List.append_assoc]
      rfl

/-- On a duplicate-free member list, Python `dict` construction is the
identity. -/
lemma dictOf_id (kvs : List (List Char × Json))
    (h : keysNodup (kvs.map Prod.fst) = true) : dictOf kvs = kvs := by
  unfold dictOf
  rw [dictOf_go_id kvs [] h (fun k hk => by simp)]
  rfl

lemma mem_keys_insertKV : ∀ (acc : List (List Char × Json)) (k : List Char) (v : Json)
    (x : List Char), x ∈ (insertKV acc k v).map Prod.fst →
    x ∈ acc.map Prod.fst ∨ x = k := by
  intro acc
  induction acc with
  | nil =>
    intro k v x h
    simp only [insertKV, List.map_cons, List.map_nil, List.mem_singleton] at h
    exact Or.inr h
  | cons kv rest ih =>
    intro k v x h
    cases kv with
    | mk k' v' =>
      rw [show insertKV ((k', v') :: rest) k v =
          if k' = k then (k', v) :: rest else (k', v') :: insertKV rest k v from rfl] at h
      by_cases he : k' = k
      · rw [if_pos he] at h
        simp only [List.map_cons, List.mem_cons] at h ⊢
        tauto
      · rw [if_neg he] at h
        simp only [List.map_cons, List.mem_cons] at h ⊢
        rcases h with rfl | h
        · tauto
        · rcases ih k v x h with h2 | h2 <;> tauto

lemma keysNodup_insertKV : ∀ (acc : List (List Char × Json)) (k : List Char) (v : Json),
    keysNodup (acc.map Prod.fst) = true →
    keysNodup ((insertKV acc k v).map Prod.fst) = true := by
  intro acc
  induction acc with
  | nil => intro k v _; simp [insertKV, keysNodup]
  | cons kv rest ih =>
    intro k v h
    cases kv with
    | mk k' v' =>
      simp only [List.map_cons] at h
      rw [show keysNodup (k' :: rest.map Prod.fst) =
          (!(decide (k' ∈ rest.map Prod.fst)) && keysNodup (rest.map Prod.fst))
        from rfl] at h
      simp only [Bool.and_eq_true, Bool.not_eq_true', decide_eq_false_iff_not] at h
      rw [show insertKV ((k', v') :: rest) k v =
          if k' = k then (k', v) :: rest else (k', v') :: insertKV rest k v from rfl]
      by_cases he : k' = k
      · rw [if_pos he]
        simp only [List.map_cons]
        rw [show keysNodup (k' :: rest.map Prod.fst) =
            (!(decide (k' ∈ rest.map Prod.fst)) && keysNodup (rest.map Prod.fst))
          from rfl]
        simp only [Bool.and_eq_true, Bool.not_eq_true', decide_eq_false_iff_not]
        exact h
      · rw [if_neg he]
        simp only [List.map_cons]
        rw [show keysNodup (k' :: (insertKV rest k v).map Prod.fst) =
            (!(decide (k' ∈ (insertKV rest k v).map Prod.fst)) &&
              keysNodup ((insertKV rest k v).map Prod.fst)) from rfl]
        simp only [Bool.and_eq_true, Bool.not_eq_true', decide_eq_false_iff_not]
        refine ⟨?_, ih k v h.2⟩
        intro hmem
        rcases mem_keys_insertKV rest k v k' hmem with h2 | h2
        · exact h.1 h2
        · exact he h2

lemma jsonWFKVs_insertKV : ∀ (acc : List (List Char × Json)) (k : List Char) (v : Json),
    jsonWFKVs acc = true → jsonWF v = true → jsonWFKVs (insertKV acc k v) = true := by
  intro acc
  induction acc with
  | nil =>
    intro k v _ hv
    rw [show insertKV [] k v = [(k, v)] from rfl]
    rw [show jsonWFKVs [(k, v)] = (jsonWF v && jsonWFKVs []) from rfl]
    simp [hv, jsonWFKVs]
  | cons kv rest ih =>
    intro k v h hv
    cases kv with
    | mk k' v' =>
      rw [show jsonWFKVs ((k', v') :: rest) = (jsonWF v' && jsonWFKVs rest) from rfl] at h
      simp only [Bool.and_eq_true] at h
      rw [show insertKV ((k', v') :: rest) k v =
          if k' = k then (k', v) :: rest else (k', v') :: insertKV rest k v from rfl]
      by_cases he : k' = k
      · rw [if_pos he]
        rw [show jsonWFKVs ((k', v) :: rest) = (jsonWF v && jsonWFKVs rest) from rfl]
        simp [hv, h.2]
      · rw [if_neg he]
        rw [show jsonWFKVs ((k', v') :: insertKV rest k v) =
            (jsonWF v' && jsonWFKVs (insertKV rest k v)) from rfl]
        simp [h.1, ih k v h.2 hv]

lemma dictOf_wf : ∀ (kvs acc : List (List Char × Json)),
    keysNodup (acc.map Prod.fst) = true → jsonWFKVs acc = true →
    jsonWFKVs kvs = true →
    keysNodup ((kvs.foldl (fun a kv => insertKV a kv.1 kv.2) acc).map Prod.fst) = true ∧
    jsonWFKVs (kvs.foldl (fun a kv => insertKV a kv.1 kv.2) acc) = true := by
  intro kvs
  induction kvs with
  | nil => intro acc h1 h2 _; exact ⟨h1, h2⟩
  | cons kv rest ih =>
    intro acc h1 h2 h3
    cases kv with
    | mk k v =>
      rw [show jsonWFKVs ((k, v) :: rest) = (jsonWF v && jsonWFKVs rest) from rfl] at h3
      simp only [Bool.and_eq_true] at h3
      rw [List.foldl_cons]
      exact ih (insertKV acc k v) (keysNodup_insertKV acc k v h1)
        (jsonWFKVs_insertKV acc k v h2 h3.1) h3.2

/-! ### Heads of renderings -/

lemma dumps_head_facts : ∀ j : Json, ∃ c cs, dumps j = c :: cs ∧ jsonWS c = false ∧
    c ≠ ']' ∧ c ≠ '}' ∧ c ≠ ',' := by
  intro j
  cases j with
  | null => exact ⟨'n', _, rfl, by decide, by decide, by decide, by decide⟩
  | bool b =>
    cases b with
    | true => exact ⟨'t', _, rfl, by decide, by decide, by decide, by decide⟩
    | false => exact ⟨'f', _, rfl, by decide, by decide, by decide, by decide⟩
  | str s => exact ⟨'"', _, rfl, by decide, by decide, by decide, by decide⟩
  | arr xs => exact ⟨'[', _, rfl, by decide, by decide, by decide, by decide⟩
  | obj kvs => exact ⟨'{', _, rfl, by decide, by decide, by decide, by decide⟩
  | num m =>
    by_cases h : m < 0
    · refine ⟨'-', natRepr (-m).toNat, ?_, by decide, by decide, by decide, by decide⟩
      rw [show dumps (.num m) = intRepr m from rfl]
      unfold intRepr
      rw [if_pos h]
    · obtain ⟨c, cs, heq, hdig, _⟩ := natRepr_head m.toNat
      refine ⟨c, cs, ?_, isDigit_not_ws hdig, isDigit_ne hdig (by decide),
        isDigit_ne hdig (by decide), isDigit_ne hdig (by decide)⟩
      rw [show dumps (.num m) = intRepr m from rfl]
      unfold intRepr
      rw [if_neg h, heq]

lemma skipWS_dumps (j : Json) (rest : List Char) :
    skipWS (dumps j ++ rest) = dumps j ++ rest := by
  obtain ⟨c, cs, heq, hws, _, _, _⟩ := dumps_head_facts j
  rw [heq, List.cons_append]
  exact skipWS_cons_false _ hws

/-! ### The serializer/parser round trip -/

lemma parseVal_succ (fuel : Nat) (l : List Char) :
    parseVal (fuel + 1) l = match skipWS l with
      | [] => none
      | c :: rest =>
        if c = 'n' then
          if ['u', 'l', 'l'].isPrefixOf rest then some (.null, rest.drop 3) else none
        else if c = 't' then
          if ['r', 'u', 'e'].isPrefixOf rest then some (.bool true, rest.drop 3) else none
        else if c = 'f' then
          if ['a', 'l', 's', 'e'].isPrefixOf rest then some (.bool false, rest.drop 4)
          else none
        else if c = '"' then
          (parseStringBody rest).map fun (s, r) => (.str s, r)
        else if c = '[' then
          if (skipWS rest).head? = some ']' then some (.arr [], (skipWS rest).tail)
          else (parseItems fuel rest).map fun (xs, r) => (.arr xs, r)
        else if c = '{' then
          if (skipWS rest).head? = some '}' then some (.obj [], (skipWS rest).tail)
          else (parseMembers fuel rest).map fun (kvs, r) => (.obj (dictOf kvs), r)
        else (parseNumber (c :: rest)).map fun (n, r) => (.num n, r) := rfl

lemma parseItems_succ (fuel : Nat) (l : List Char) :
    parseItems (fuel + 1) l =
      ((parseVal fuel l).bind fun (v, rest) =>
        if (skipWS rest).head? = some ',' then
          (parseItems fuel (skipWS rest).tail).map fun (vs, r) => (v :: vs, r)
        else if (skipWS rest).head? = some ']' then some ([v], (skipWS rest).tail)
        else none) := rfl

lemma parseMembers_succ (fuel : Nat) (l : List Char) :
    parseMembers (fuel + 1) l = match skipWS l with
      | [] => none
      | c :: rest =>
        if c = '"' then
          (parseStringBody rest).bind fun (k, rest1) =>
            if (skipWS rest1).head? = some ':' then
              (parseVal fuel (skipWS rest1).tail).bind fun (v, rest3) =>
                if (skipWS rest3).head? = some ',' then
                  (parseMembers fuel (skipWS rest3).tail).map fun (kvs, r) =>
                    ((k, v) :: kvs, r)
                else if (skipWS rest3).head? = some '}' then
                  some ([(k, v)], (skipWS rest3).tail)
                else none
            else none
        else none := rfl

lemma dumpsItems_cons_shape (x : Json) (xs : List Json) :
    ∃ tail, dumpsItems (x :: xs) = dumps x ++ tail := by
  cases xs with
  | nil => exact ⟨[], (List.append_nil _).symm⟩
  | cons y ys => exact ⟨',' :: dumpsItems (y :: ys), rfl⟩

lemma dumps_length_pos (j : Json) : 1 ≤ (dumps j).length := by
  obtain ⟨c, cs, heq, _⟩ := dumps_head_facts j
  rw [heq]
  simp

/-- The round trip: rendering a well-formed tree and parsing it back yields
the tree, with any non-numeral-extending remainder untouched. -/
lemma dumps_parse : ∀ n : Nat,
    (∀ j : Json, sizeOf j ≤ n → jsonWF j = true →
      ∀ (rest : List Char) (fuel : Nat), noNumExt rest = true →
        2 * (dumps j).length < fuel →
        parseVal fuel (dumps j ++ rest) = some (j, rest)) ∧
    (∀ xs : List Json, sizeOf xs ≤ n → xs ≠ [] → jsonWFList xs = true →
      ∀ (rest : List Char) (fuel : Nat), 2 * ((dumpsItems xs).length + 1) < fuel →
        parseItems fuel (dumpsItems xs ++ ']' :: rest) = some (xs, rest)) ∧
    (∀ kvs : List (List Char × Json), sizeOf kvs ≤ n → kvs ≠ [] → jsonWFKVs kvs = true →
      ∀ (rest : List Char) (fuel : Nat), 2 * ((dumpsMembers kvs).length + 1) < fuel →
        parseMembers fuel (dumpsMembers kvs ++ '}' :: rest) = some (kvs, rest)) := by
  intro n
  induction n using Nat.strong_induction_on with
  | _ n ih =>
    refine ⟨?_, ?_, ?_⟩
    · intro j hsz hwf rest fuel hrest hfuel
      obtain ⟨g, rfl⟩ : ∃ g, fuel = g + 1 := ⟨fuel - 1, by omega⟩
      cases j with
      | null =>
        rw [show dumps .null ++ rest = 'n' :: 'u' :: 'l' :: 'l' :: rest from rfl,
          parseVal_succ, skipWS_cons_false _ (by decide)]
        dsimp only
        rw [if_pos rfl, if_pos (by simp [List.isPrefixOf])]
        rfl
      | bool b =>
        cases b with
        | true =>
          rw [show dumps (.bool true) ++ rest = 't' :: 'r' :: 'u' :: 'e' :: rest from rfl,
            parseVal_succ, skipWS_cons_false _ (by decide)]
          dsimp only
          rw [if_neg (by decide), if_pos rfl, if_pos (by simp [List.isPrefixOf])]
          rfl
        | false =>
          rw [show dumps (.bool false) ++ rest =
              'f' :: 'a' :: 'l' :: 's' :: 'e' :: rest from rfl,
            parseVal_succ, skipWS_cons_false _ (by decide)]
          dsimp only
          rw [if_neg (by decide), if_neg (by decide), if_pos rfl,
            if_pos (by simp [List.isPrefixOf])]
          rfl
      | str s =>
        have hshape : dumps (.str s) ++ rest = '"' :: (escStr s ++ '"' :: rest) := by
          rw [show dumps (.str s) = '"' :: escStr s ++ ['"'] from rfl]
          simp
        rw [hshape, parseVal_succ, skipWS_cons_false _ (by decide)]
        dsimp only
        rw [if_neg (by decide), if_neg (by decide), if_neg (by decide), if_pos rfl,
          parseStringBody_roundtrip]
        rfl
      | num m =>
        rw [parseVal_succ, skipWS_dumps (.num m) rest]
        have hir : dumps (.num m) = intRepr m := rfl
        rcases hc : intRepr m with _ | ⟨c, cs⟩
        · exfalso
          have hp := dumps_length_pos (.num m)
          rw [hir, hc] at hp
          simp at hp
        · have hcfacts : c = '-' ∨ c.isDigit = true := by
            by_cases hm : m < 0
            · left
              have h2 : intRepr m = '-' :: natRepr (-m).toNat := by
                unfold intRepr; rw [if_pos hm]
              rw [h2] at hc
              injection hc with h3 h4
              exact h3.symm
            · right
              obtain ⟨c', cs', heq, hdig, _⟩ := natRepr_head m.toNat
              have h2 : intRepr m = c' :: cs' := by unfold intRepr; rw [if_neg hm, heq]
              rw [h2] at hc
              injection hc with h3 h4
              exact h3 ▸ hdig
          have hne : (c ≠ 'n') ∧ (c ≠ 't') ∧ (c ≠ 'f') ∧ (c ≠ '"') ∧ (c ≠ '[') ∧
              (c ≠ '{') := by
            rcases hcfacts with rfl | hdig
            · exact ⟨by decide, by decide, by decide, by decide, by decide, by decide⟩
            · exact ⟨isDigit_ne hdig (by decide), isDigit_ne hdig (by decide),
                isDigit_ne hdig (by decide), isDigit_ne hdig (by decide),
                isDigit_ne hdig (by decide), isDigit_ne hdig (by decide)⟩
          rw [hir, hc, List.cons_append]
          dsimp only
          rw [if_neg hne.1, if_neg hne.2.1, if_neg hne.2.2.1, if_neg hne.2.2.2.1,
            if_neg hne.2.2.2.2.1, if_neg hne.2.2.2.2.2]
          rw [show (c :: (cs ++ rest)) = (c :: cs) ++ rest from rfl, ← hc, ← hir]
          rw [hir, parseNumber_intRepr m rest hrest]
          rfl
      | arr xs =>
        cases xs with
        | nil =>
          rw [show dumps (.arr []) ++ rest = '[' :: ']' :: rest from rfl]
          rfl
        | cons x xs' =>
          have hshape : dumps (.arr (x :: xs')) ++ rest =
              '[' :: (dumpsItems (x :: xs') ++ ']' :: rest) := by
            rw [show dumps (.arr (x :: xs')) = '[' :: dumpsItems (x :: xs') ++ [']']
              from rfl]
            simp
          rw [hshape, parseVal_succ, skipWS_cons_false _ (by decide)]
          dsimp only
          rw [if_neg (by decide), if_neg (by decide), if_neg (by decide),
            if_neg (by decide), if_pos rfl]
          obtain ⟨tail, ht⟩ := dumpsItems_cons_shape x xs'
          obtain ⟨c, cs, heq, hws, hc1, hc2, hc3⟩ := dumps_head_facts x
          have hsw : skipWS (dumpsItems (x :: xs') ++ ']' :: rest) =
              c :: (cs ++ tail ++ ']' :: rest) := by
            rw [ht, heq]
            rw [show (c :: cs ++ tail) ++ ']' :: rest = c :: (cs ++ tail ++ ']' :: rest)
              from by simp]
            exact skipWS_cons_false _ hws
          rw [if_neg (by rw [hsw]; simp [hc1])]
          have hxs : sizeOf (x :: xs') < n := by
            have : sizeOf (Json.arr (x :: xs')) = 1 + sizeOf (x :: xs') := by simp
            omega
          have hlen : (dumps (.arr (x :: xs'))).length =
              (dumpsItems (x :: xs')).length + 2 := by
            rw [show dumps (.arr (x :: xs')) = '[' :: dumpsItems (x :: xs') ++ [']']
              from rfl]
            simp
          rw [(ih (sizeOf (x :: xs')) hxs).2.1 (x :: xs') le_rfl (by simp)
            (by rw [show jsonWF (.arr (x :: xs')) = jsonWFList (x :: xs') from rfl] at hwf
                exact hwf)
            rest g (by omega)]
          rfl
      | obj kvs =>
        cases kvs with
        | nil =>
          rw [show dumps (.obj []) ++ rest = '{' :: '}' :: rest from rfl]
          rfl
        | cons kv kvs' =>
          obtain ⟨k, v⟩ := kv
          have hshape : dumps (.obj ((k, v) :: kvs')) ++ rest =
              '{' :: (dumpsMembers ((k, v) :: kvs') ++ '}' :: rest) := by
            rw [show dumps (.obj ((k, v) :: kvs')) =
                '{' :: dumpsMembers ((k, v) :: kvs') ++ ['}'] from rfl]
            simp
          rw [hshape, parseVal_succ, skipWS_cons_false _ (by decide)]
          dsimp only
          rw [if_neg (by decide), if_neg (by decide), if_neg (by decide),
            if_neg (by decide), if_neg (by decide), if_pos rfl]
          have hmh : ∃ mtail, dumpsMembers ((k, v) :: kvs') =
              '"' :: escStr k ++ '"' :: ':' :: dumps v ++ mtail := by
            cases kvs' with
            | nil =>
              refine ⟨[], ?_⟩
              rw [show dumpsMembers [(k, v)] =
                  '"' :: escStr k ++ '"' :: ':' :: dumps v from rfl]
              simp
            | cons m rest' =>
              exact ⟨',' :: dumpsMembers (m :: rest'), rfl⟩
          obtain ⟨mtail, hmt⟩ := hmh
          have hsw : skipWS (dumpsMembers ((k, v) :: kvs') ++ '}' :: rest) =
              dumpsMembers ((k, v) :: kvs') ++ '}' :: rest := by
            rw [hmt]
            rw [show ('"' :: escStr k ++ '"' :: ':' :: dumps v ++ mtail) ++ '}' :: rest =
                '"' :: (escStr k ++ '"' :: ':' :: dumps v ++ mtail ++ '}' :: rest)
              from by simp]
            exact skipWS_cons_false _ (by decide)
          rw [if_neg (by
            rw [hsw, hmt]
            rw [show ('"' :: escStr k ++ '"' :: ':' :: dumps v ++ mtail) ++ '}' :: rest =
                '"' :: (escStr k ++ '"' :: ':' :: dumps v ++ mtail ++ '}' :: rest)
              from by simp]
            simp)]
          have hwf2 : keysNodup (((k, v) :: kvs').map Prod.fst) = true ∧
              jsonWFKVs ((k, v) :: kvs') = true := by
            rw [show jsonWF (.obj ((k, v) :: kvs')) =
                (keysNodup (((k, v) :: kvs').map Prod.fst) &&
                 jsonWFKVs ((k, v) :: kvs')) from rfl] at hwf
            simpa using hwf
          have hkvs : sizeOf ((k, v) :: kvs') < n := by
            have : sizeOf (Json.obj ((k, v) :: kvs')) = 1 + sizeOf ((k, v) :: kvs') := by
              simp
            omega
          have hlen : (dumps (.obj ((k, v) :: kvs'))).length =
              (dumpsMembers ((k, v) :: kvs')).length + 2 := by
            rw [show dumps (.obj ((k, v) :: kvs')) =
                '{' :: dumpsMembers ((k, v) :: kvs') ++ ['}'] from rfl]
            simp
          rw [(ih (sizeOf ((k, v) :: kvs')) hkvs).2.2 ((k, v) :: kvs') le_rfl (by simp)
            hwf2.2 rest g (by omega)]
          rw [show Option.map (fun (p : List (List Char × Json) × List Char) =>
              (Json.obj (dictOf p.1), p.2)) (some ((k, v) :: kvs', rest)) =
              some (Json.obj (dictOf ((k, v) :: kvs')), rest) from rfl]
          rw [dictOf_id _ hwf2.1]
    · intro xs hsz hne hwf rest fuel hfuel
      obtain ⟨g, rfl⟩ : ∃ g, fuel = g + 1 := ⟨fuel - 1, by omega⟩
      cases xs with
      | nil => exact absurd rfl hne
      | cons x xs' =>
        have hszx : sizeOf x < n := by
          have : sizeOf (x :: xs') = 1 + sizeOf x + sizeOf xs' := by simp
          omega
        have hwfx : jsonWF x = true ∧ jsonWFList xs' = true := by
          rw [show jsonWFList (x :: xs') = (jsonWF x && jsonWFList xs') from rfl] at hwf
          simpa using hwf
        rw [parseItems_succ]
        cases xs' with
        | nil =>
          rw [show dumpsItems [x] = dumps x from rfl]
          rw [(ih (sizeOf x) hszx).1 x le_rfl hwfx.1 (']' :: rest) g rfl
            (by rw [show dumpsItems [x] = dumps x from rfl] at hfuel; omega)]
          rw [show Option.bind (some (x, ']' :: rest)) (fun (p : Json × List Char) =>
              if (skipWS p.2).head? = some ',' then
                (parseItems g (skipWS p.2).tail).map fun q => (p.1 :: q.1, q.2)
              else if (skipWS p.2).head? = some ']' then some ([p.1], (skipWS p.2).tail)
              else none) =
              (if (skipWS (']' :: rest)).head? = some ',' then
                (parseItems g (skipWS (']' :: rest)).tail).map fun q => (x :: q.1, q.2)
              else if (skipWS (']' :: rest)).head? = some ']' then
                some ([x], (skipWS (']' :: rest)).tail)
              else none) from rfl]
          rw [skipWS_cons_false _ (by decide)]
          have hnc : ¬ (List.head? (']' :: rest) = some ',') := by simp
          have hyc : List.head? (']' :: rest) = some ']' := rfl
          rw [if_neg hnc, if_pos hyc]
          rfl
        | cons y ys =>
          have hshape : dumpsItems (x :: y :: ys) ++ ']' :: rest =
              dumps x ++ (',' :: (dumpsItems (y :: ys) ++ ']' :: rest)) := by
            rw [show dumpsItems (x :: y :: ys) = dumps x ++ ',' :: dumpsItems (y :: ys)
              from rfl]
            simp
          have hlen : (dumpsItems (x :: y :: ys)).length =
              (dumps x).length + 1 + (dumpsItems (y :: ys)).length := by
            rw [show dumpsItems (x :: y :: ys) = dumps x ++ ',' :: dumpsItems (y :: ys)
              from rfl]
            simp
            omega
          have hLx := dumps_length_pos x
          rw [hshape]
          rw [(ih (sizeOf x) hszx).1 x le_rfl hwfx.1
            (',' :: (dumpsItems (y :: ys) ++ ']' :: rest)) g rfl (by omega)]
          rw [show Option.bind (some (x, ',' :: (dumpsItems (y :: ys) ++ ']' :: rest)))
              (fun (p : Json × List Char) =>
              if (skipWS p.2).head? = some ',' then
                (parseItems g (skipWS p.2).tail).map fun q => (p.1 :: q.1, q.2)
              else if (skipWS p.2).head? = some ']' then some ([p.1], (skipWS p.2).tail)
              else none) =
              (if (skipWS (',' :: (dumpsItems (y :: ys) ++ ']' :: rest))).head? =
                  some ',' then
                (parseItems g
                  (skipWS (',' :: (dumpsItems (y :: ys) ++ ']' :: rest))).tail).map
                    fun q => (x :: q.1, q.2)
              else if (skipWS (',' :: (dumpsItems (y :: ys) ++ ']' :: rest))).head? =
                  some ']' then
                some ([x],
                  (skipWS (',' :: (dumpsItems (y :: ys) ++ ']' :: rest))).tail)
              else none) from rfl]
          rw [skipWS_cons_false _ (by decide)]
          have hcc : List.head? (',' :: (dumpsItems (y :: ys) ++ ']' :: rest)) =
              some ',' := rfl
          rw [if_pos hcc]
          have hszys : sizeOf (y :: ys) < n := by
            have h1 : sizeOf (x :: y :: ys) = 1 + sizeOf x + sizeOf (y :: ys) := by simp
            omega
          rw [show (List.tail (',' :: (dumpsItems (y :: ys) ++ ']' :: rest))) =
              dumpsItems (y :: ys) ++ ']' :: rest from rfl]
          rw [(ih (sizeOf (y :: ys)) hszys).2.1 (y :: ys) le_rfl (by simp) hwfx.2
            rest g (by omega)]
          rfl
    · intro kvs hsz hne hwf rest fuel hfuel
      obtain ⟨g, rfl⟩ : ∃ g, fuel = g + 1 := ⟨fuel - 1, by omega⟩
      cases kvs with
      | nil => exact absurd rfl hne
      | cons kv kvs' =>
        obtain ⟨k, v⟩ := kv
        have hszv : sizeOf v < n := by
          have : sizeOf ((k, v) :: kvs') = 1 + (1 + sizeOf k + sizeOf v) + sizeOf kvs' := by
            simp
          omega
        have hwfv : jsonWF v = true ∧ jsonWFKVs kvs' = true := by
          rw [show jsonWFKVs ((k, v) :: kvs') = (jsonWF v && jsonWFKVs kvs') from rfl]
            at hwf
          simpa using hwf
        rw [parseMembers_succ]
        cases kvs' with
        | nil =>
          have hshape : dumpsMembers [(k, v)] ++ '}' :: rest =
              '"' :: (escStr k ++ '"' :: (':' :: (dumps v ++ '}' :: rest))) := by
            rw [show dumpsMembers [(k, v)] = '"' :: escStr k ++ '"' :: ':' :: dumps v
              from rfl]
            simp
          have hlen : (dumpsMembers [(k, v)]).length =
              (escStr k).length + (dumps v).length + 3 := by
            rw [show dumpsMembers [(k, v)] = '"' :: escStr k ++ '"' :: ':' :: dumps v
              from rfl]
            simp
            omega
          rw [hshape, skipWS_cons_false _ (by decide)]
          dsimp only
          have hq1 : ('"' : Char) = '"' := rfl
          rw [if_pos hq1, parseStringBody_roundtrip]
          rw [Option.some_bind]
          rw [show skipWS (':' :: (dumps v ++ '}' :: rest)) =
              ':' :: (dumps v ++ '}' :: rest) from skipWS_cons_false _ (by decide)]
          have hcol1 : List.head? (':' :: (dumps v ++ '}' :: rest)) = some ':' := rfl
          rw [if_pos hcol1]
          rw [show (List.tail (':' :: (dumps v ++ '}' :: rest))) =
              dumps v ++ '}' :: rest from rfl]
          rw [(ih (sizeOf v) hszv).1 v le_rfl hwfv.1 ('}' :: rest) g rfl
            (by omega)]
          rw [Option.some_bind]
          rw [show skipWS ('}' :: rest) = '}' :: rest from skipWS_cons_false _ (by decide)]
          have hnc2 : ¬ (List.head? ('}' :: rest) = some ',') := by simp
          have hbc2 : List.head? ('}' :: rest) = some '}' := rfl
          rw [if_neg hnc2, if_pos hbc2]
          rfl
        | cons m kvs'' =>
          have hshape : dumpsMembers ((k, v) :: m :: kvs'') ++ '}' :: rest =
              '"' :: (escStr k ++ '"' :: (':' :: (dumps v ++
                ',' :: (dumpsMembers (m :: kvs'') ++ '}' :: rest)))) := by
            rw [show dumpsMembers ((k, v) :: m :: kvs'') =
                '"' :: escStr k ++ '"' :: ':' :: dumps v ++
                  ',' :: dumpsMembers (m :: kvs'') from rfl]
            simp
          have hlen : (dumpsMembers ((k, v) :: m :: kvs'')).length =
              (escStr k).length + (dumps v).length +
                (dumpsMembers (m :: kvs'')).length + 4 := by
            rw [show dumpsMembers ((k, v) :: m :: kvs'') =
                '"' :: escStr k ++ '"' :: ':' :: dumps v ++
                  ',' :: dumpsMembers (m :: kvs'') from rfl]
            simp
            omega
          rw [hshape, skipWS_cons_false _ (by decide)]
          dsimp only
          have hq2 : ('"' : Char) = '"' := rfl
          rw [if_pos hq2, parseStringBody_roundtrip]
          rw [Option.some_bind]
          rw [show skipWS (':' :: (dumps v ++ ',' ::
              (dumpsMembers (m :: kvs'') ++ '}' :: rest))) =
              ':' :: (dumps v ++ ',' :: (dumpsMembers (m :: kvs'') ++ '}' :: rest))
            from skipWS_cons_false _ (by decide)]
          have hcol2 : List.head? (':' :: (dumps v ++ ',' ::
              (dumpsMembers (m :: kvs'') ++ '}' :: rest))) = some ':' := rfl
          rw [if_pos hcol2]
          rw [show (List.tail (':' :: (dumps v ++ ',' ::
              (dumpsMembers (m :: kvs'') ++ '}' :: rest)))) =
              dumps v ++ ',' :: (dumpsMembers (m :: kvs'') ++ '}' :: rest) from rfl]
          rw [(ih (sizeOf v) hszv).1 v le_rfl hwfv.1
            (',' :: (dumpsMembers (m :: kvs'') ++ '}' :: rest)) g rfl
            (by omega)]
          rw [Option.some_bind]
          rw [show skipWS (',' :: (dumpsMembers (m :: kvs'') ++ '}' :: rest)) =
              ',' :: (dumpsMembers (m :: kvs'') ++ '}' :: rest)
            from skipWS_cons_false _ (by decide)]
          have hcc2 : List.head? (',' :: (dumpsMembers (m :: kvs'') ++ '}' :: rest)) =
              some ',' := rfl
          rw [if_pos hcc2]
          have hszm : sizeOf (m :: kvs'') < n := by
            have h1 : sizeOf ((k, v) :: m :: kvs'') =
                1 + (1 + sizeOf k + sizeOf v) + sizeOf (m :: kvs'') := by simp
            omega
          rw [show (List.tail (',' :: (dumpsMembers (m :: kvs'') ++ '}' :: rest))) =
              dumpsMembers (m :: kvs'') ++ '}' :: rest from rfl]
          rw [(ih (sizeOf (m :: kvs'')) hszm).2.2 (m :: kvs'') le_rfl (by simp)
            hwfv.2 rest g (by omega)]
          rfl

lemma parse_WF : ∀ fuel : Nat,
    (∀ l j rs, parseVal fuel l = some (j, rs) → jsonWF j = true) ∧
    (∀ l xs rs, parseItems fuel l = some (xs, rs) → jsonWFList xs = true) ∧
    (∀ l kvs rs, parseMembers fuel l = some (kvs, rs) → jsonWFKVs kvs = true) := by
  intro fuel
  induction fuel with
  | zero =>
    refine ⟨?_, ?_, ?_⟩
    · intro l j rs h
      exact absurd h (by rw [show parseVal 0 l = none from rfl]; simp)
    · intro l xs rs h
      exact absurd h (by rw [show parseItems 0 l = none from rfl]; simp)
    · intro l kvs rs h
      exact absurd h (by rw [show parseMembers 0 l = none from rfl]; simp)
  | succ fuel ih =>
    obtain ⟨ihV, ihI, ihM⟩ := ih
    refine ⟨?_, ?_, ?_⟩
    · intro l j rs h
      rw [parseVal_succ] at h
      cases hskip : skipWS l with
      | nil =>
        rw [hskip] at h
        exact absurd h (by simp)
      | cons c cs =>
        rw [hskip] at h
        dsimp only at h
        by_cases hn : c = 'n'
        · rw [if_pos hn] at h
          split at h
          · injection h with h1
            injection h1 with h2 h3
            rw [← h2]
            rfl
          · exact absurd h (by simp)
        · rw [if_neg hn] at h
          by_cases ht : c = 't'
          · rw [if_pos ht] at h
            split at h
            · injection h with h1
              injection h1 with h2 h3
              rw [← h2]
              rfl
            · exact absurd h (by simp)
          · rw [if_neg ht] at h
            by_cases hf : c = 'f'
            · rw [if_pos hf] at h
              split at h
              · injection h with h1
                injection h1 with h2 h3
                rw [← h2]
                rfl
              · exact absurd h (by simp)
            · rw [if_neg hf] at h
              by_cases hq : c = '"'
              · rw [if_pos hq] at h
                cases hp : parseStringBody cs with
                | none =>
                  rw [hp] at h
                  exact absurd h (by simp)
                | some p =>
                  obtain ⟨s, r⟩ := p
                  rw [hp] at h
                  simp only [Option.map_some', Option.some.injEq, Prod.mk.injEq] at h
                  obtain ⟨h2, h3⟩ := h
                  rw [← h2]
                  rfl
              · rw [if_neg hq] at h
                by_cases hbr : c = '['
                · rw [if_pos hbr] at h
                  split at h
                  · injection h with h1
                    injection h1 with h2 h3
                    rw [← h2]
                    rfl
                  · cases hp : parseItems fuel cs with
                    | none =>
                      rw [hp] at h
                      exact absurd h (by simp)
                    | some p =>
                      obtain ⟨xs, r⟩ := p
                      rw [hp] at h
                      simp only [Option.map_some', Option.some.injEq,
                        Prod.mk.injEq] at h
                      obtain ⟨h2, h3⟩ := h
                      rw [← h2]
                      exact ihI cs xs r hp
                · rw [if_neg hbr] at h
                  by_cases hbc : c = '{'
                  · rw [if_pos hbc] at h
                    split at h
                    · injection h with h1
                      injection h1 with h2 h3
                      rw [← h2]
                      rfl
                    · cases hp : parseMembers fuel cs with
                      | none =>
                        rw [hp] at h
                        exact absurd h (by simp)
                      | some p =>
                        obtain ⟨kvs, r⟩ := p
                        rw [hp] at h
                        simp only [Option.map_some', Option.some.injEq,
                          Prod.mk.injEq] at h
                        obtain ⟨h2, h3⟩ := h
                        rw [← h2]
                        have hk := ihM cs kvs r hp
                        have hd := dictOf_wf kvs [] rfl rfl hk
                        rw [show jsonWF (.obj (dictOf kvs)) =
                            (keysNodup ((dictOf kvs).map Prod.fst) &&
                              jsonWFKVs (dictOf kvs)) from rfl]
                        rw [show dictOf kvs =
                            kvs.foldl (fun a kv => insertKV a kv.1 kv.2) [] from rfl]
                        simp [hd.1, hd.2]
                  · rw [if_neg hbc] at h
                    cases hp : parseNumber (c :: cs) with
                    | none =>
                      rw [hp] at h
                      exact absurd h (by simp)
                    | some p =>
                      obtain ⟨m, r⟩ := p
                      rw [hp] at h
                      simp only [Option.map_some', Option.some.injEq,
                        Prod.mk.injEq] at h
                      obtain ⟨h2, h3⟩ := h
                      rw [← h2]
                      rfl
    · intro l xs rs h
      rw [parseItems_succ] at h
      cases hv : parseVal fuel l with
      | none =>
        rw [hv] at h
        exact absurd h (by simp)
      | some p =>
        obtain ⟨v, r1⟩ := p
        rw [hv] at h
        rw [Option.some_bind] at h
        dsimp only at h
        have hwv := ihV l v r1 hv
        split at h
        · cases hp : parseItems fuel (skipWS r1).tail with
          | none =>
            rw [hp] at h
            exact absurd h (by simp)
          | some q =>
            obtain ⟨vs, r2⟩ := q
            rw [hp] at h
            simp only [Option.map_some', Option.some.injEq, Prod.mk.injEq] at h
            obtain ⟨h2, h3⟩ := h
            rw [← h2]
            have hwvs := ihI _ vs r2 hp
            rw [show jsonWFList (v :: vs) = (jsonWF v && jsonWFList vs) from rfl]
            simp [hwv, hwvs]
        · split at h
          · injection h with h1
            injection h1 with h2 h3
            rw [← h2]
            rw [show jsonWFList [v] = (jsonWF v && jsonWFList []) from rfl]
            simp [hwv]
            rfl
          · exact absurd h (by simp)
    · intro l kvs rs h
      rw [parseMembers_succ] at h
      cases hskip : skipWS l with
      | nil =>
        rw [hskip] at h
        exact absurd h (by simp)
      | cons c cs =>
        rw [hskip] at h
        dsimp only at h
        by_cases hq : c = '"'
        · rw [if_pos hq] at h
          cases hs : parseStringBody cs with
          | none =>
            rw [hs] at h
            exact absurd h (by simp)
          | some p =>
            obtain ⟨k, r1⟩ := p
            rw [hs] at h
            rw [Option.some_bind] at h
            dsimp only at h
            split at h
            · cases hv : parseVal fuel (skipWS r1).tail with
              | none =>
                rw [hv] at h
                exact absurd h (by simp)
              | some q =>
                obtain ⟨v, r3⟩ := q
                rw [hv] at h
                rw [Option.some_bind] at h
                dsimp only at h
                have hwv := ihV _ v r3 hv
                split at h
                · cases hm : parseMembers fuel (skipWS r3).tail with
                  | none =>
                    rw [hm] at h
                    exact absurd h (by simp)
                  | some q2 =>
                    obtain ⟨kvs2, r4⟩ := q2
                    rw [hm] at h
                    simp only [Option.map_some', Option.some.injEq,
                      Prod.mk.injEq] at h
                    obtain ⟨h2, h3⟩ := h
                    rw [← h2]
                    have hwm := ihM _ kvs2 r4 hm
                    rw [show jsonWFKVs ((k, v) :: kvs2) =
                        (jsonWF v && jsonWFKVs kvs2) from rfl]
                    simp [hwv, hwm]
                · split at h
                  · injection h with h1
                    injection h1 with h2 h3
                    rw [← h2]
                    rw [show jsonWFKVs [(k, v)] = (jsonWF v && jsonWFKVs []) from rfl]
                    simp [hwv]
                    rfl
                  · exact absurd h (by simp)
            · exact absurd h (by simp)
        · rw [if_neg hq] at h
          exact absurd h (by simp)

lemma parseJson_dumps {j : Json} (hwf : jsonWF j = true) :
    parseJson (dumps j) = some j := by
  have h := (dumps_parse (sizeOf j)).1 j le_rfl hwf [] (2 * (dumps j).length + 2) rfl
    (by omega)
  rw [List.append_nil] at h
  unfold parseJson
  rw [h]
  rfl

lemma parseJson_WF {t : List Char} {j : Json} (h : parseJson t = some j) :
    jsonWF j = true := by
  unfold parseJson at h
  cases hv : parseVal (2 * t.length + 2) t with
  | none =>
    rw [hv] at h
    exact absurd h (by simp)
  | some p =>
    obtain ⟨jv, rv⟩ := p
    rw [hv] at h
    dsimp only at h
    split at h
    · injection h with h1
      rw [← h1]
      exact (parse_WF _).1 t jv rv hv
    · exact absurd h (by simp)

lemma parseNumber_head {c : Char} {rest : List Char} {p : Int × List Char}
    (h : parseNumber (c :: rest) = some p) : c = '-' ∨ c.isDigit = true := by
  unfold parseNumber at h
  dsimp only at h
  by_cases hm : c = '-'
  · exact Or.inl hm
  · rw [if_neg hm] at h
    right
    unfold parseIntPart at h
    dsimp only at h
    by_cases h0 : c = '0'
    · rw [h0]
      decide
    · rw [if_neg h0] at h
      by_cases hd : c.isDigit
      · exact hd
      · rw [if_neg hd] at h
        exact absurd h (by simp)

lemma parseVal_head {fuel : Nat} {c : Char} {rest : List Char} {j : Json}
    {rs : List Char} (h : parseVal fuel (c :: rest) = some (j, rs))
    (hws : jsonWS c = false) :
    c = 'n' ∨ c = 't' ∨ c = 'f' ∨ c = '"' ∨ c = '[' ∨ c = '{' ∨ c = '-' ∨
      c.isDigit = true := by
  cases fuel with
  | zero => exact absurd h (by rw [show parseVal 0 (c :: rest) = none from rfl]; simp)
  | succ g =>
    rw [parseVal_succ, skipWS_cons_false _ hws] at h
    dsimp only at h
    by_cases hn : c = 'n'
    · exact Or.inl hn
    · rw [if_neg hn] at h
      by_cases ht : c = 't'
      · exact Or.inr (Or.inl ht)
      · rw [if_neg ht] at h
        by_cases hf : c = 'f'
        · exact Or.inr (Or.inr (Or.inl hf))
        · rw [if_neg hf] at h
          by_cases hq : c = '"'
          · exact Or.inr (Or.inr (Or.inr (Or.inl hq)))
          · rw [if_neg hq] at h
            by_cases hbr : c = '['
            · exact Or.inr (Or.inr (Or.inr (Or.inr (Or.inl hbr))))
            · rw [if_neg hbr] at h
              by_cases hbc : c = '{'
              · exact Or.inr (Or.inr (Or.inr (Or.inr (Or.inr (Or.inl hbc)))))
              · rw [if_neg hbc] at h
                cases hp : parseNumber (c :: rest) with
                | none =>
                  rw [hp] at h
                  exact absurd h (by simp)
                | some q =>
                  exact Or.inr (Or.inr (Or.inr (Or.inr (Or.inr (Or.inr
                    (parseNumber_head hp))))))

lemma matchArrayBody_head {v : List Char} (h : matchArrayBody v = true) :
    v.head? = some 'a' := by
  rw [matchArrayBody.eq_def] at h
  split at h
  · rfl
  · exact absurd h (by simp)

lemma matchStringBody_head {v : List Char} (h : matchStringBody v = true) :
    v.head? = some 's' := by
  rw [matchStringBody.eq_def] at h
  split at h
  · rfl
  · exact absurd h (by simp)

lemma matchIntBody_head {v : List Char} (h : matchIntBody v = true) :
    v.head? = some 'i' := by
  rw [matchIntBody.eq_def] at h
  split at h
  · rfl
  · exact absurd h (by simp)

lemma matchBoolBody_head {v : List Char} (h : matchBoolBody v = true) :
    v.head? = some 'b' := by
  rw [matchBoolBody.eq_def] at h
  split at h
  · rfl
  · exact absurd h (by simp)

lemma matchObjectBody_head {v : List Char} (h : matchObjectBody v = true) :
    v.head? = some 'O' := by
  rw [matchObjectBody.eq_def] at h
  split at h
  · rfl
  · exact absurd h (by simp)

lemma head_dropLast_eq {v : List Char} {c : Char}
    (h : v.dropLast.head? = some c) : v.head? = some c := by
  cases v with
  | nil => simp at h
  | cons a v' =>
    cases v' with
    | nil => simp at h
    | cons b v'' =>
      rw [show (a :: b :: v'').dropLast = a :: (b :: v'').dropLast from rfl] at h
      simpa using h

lemma matchesWithDollar_head {body : List Char → Bool} {v : List Char} {c0 : Char}
    (hb : ∀ w, body w = true → w.head? = some c0)
    (h : matchesWithDollar body v = true) : v.head? = some c0 := by
  unfold matchesWithDollar at h
  simp only [Bool.or_eq_true, Bool.and_eq_true, decide_eq_true_eq] at h
  rcases h with h | ⟨_, h⟩
  · exact hb v h
  · exact head_dropLast_eq (hb _ h)

lemma isPhpSerialized_head {v : List Char} (h : isPhpSerialized v = true) :
    ∃ c, v.head? = some c ∧ (c = 'a' ∨ c = 's' ∨ c = 'i' ∨ c = 'b' ∨ c = 'O') := by
  unfold isPhpSerialized at h
  simp only [Bool.and_eq_true, Bool.or_eq_true] at h
  rcases h.2 with ((((ha | hs) | hi) | hb) | hO)
  · exact ⟨'a', matchesWithDollar_head (fun _ => matchArrayBody_head) ha, Or.inl rfl⟩
  · exact ⟨'s', matchesWithDollar_head (fun _ => matchStringBody_head) hs,
      Or.inr (Or.inl rfl)⟩
  · exact ⟨'i', matchesWithDollar_head (fun _ => matchIntBody_head) hi,
      Or.inr (Or.inr (Or.inl rfl))⟩
  · exact ⟨'b', matchesWithDollar_head (fun _ => matchBoolBody_head) hb,
      Or.inr (Or.inr (Or.inr (Or.inl rfl)))⟩
  · exact ⟨'O', matchesWithDollar_head (fun _ => matchObjectBody_head) hO,
      Or.inr (Or.inr (Or.inr (Or.inr rfl)))⟩

lemma parseJson_not_php {t : List Char} {j : Json} (h : parseJson t = some j) :
    isPhpSerialized t = false := by
  by_contra hphp
  rw [Bool.not_eq_false] at hphp
  obtain ⟨c, hhead, hc⟩ := isPhpSerialized_head hphp
  cases t with
  | nil => simp at hhead
  | cons c0 rest =>
    rw [show (c0 :: rest).head? = some c0 from rfl] at hhead
    injection hhead with hc0
    subst hc0
    have hws : jsonWS c0 = false := by
      rcases hc with rfl | rfl | rfl | rfl | rfl <;> decide
    unfold parseJson at h
    cases hv : parseVal (2 * (c0 :: rest).length + 2) (c0 :: rest) with
    | none =>
      rw [hv] at h
      exact absurd h (by simp)
    | some p =>
      obtain ⟨jv, rv⟩ := p
      have hhd := parseVal_head hv hws
      rcases hc with rfl | rfl | rfl | rfl | rfl <;>
        (rcases hhd with h1 | h1 | h1 | h1 | h1 | h1 | h1 | h1 <;> revert h1 <;> decide)

/-- C7: for every input that parses as JSON, the facade routes it to the JSON
rewriter, whose output is again valid JSON; re-parsing the output yields
exactly the substituted tree, whose shape (object/array structure, keys and
non-string scalars) equals the input tree's shape and whose string leaves are
the input's string leaves each sent through literal substring replacement. -/
theorem claim_C7 (t s r : List Char) (j : Json) (h : parseJson t = some j) :
    safeReplace (some t) s r = jsonReplaceData t s r ∧
    isJsonData (safeReplace (some t) s r) = true ∧
    parseJson (safeReplace (some t) s r) = some (jsonReplace s r j) ∧
    jshape (jsonReplace s r j) = jshape j ∧
    jstrings (jsonReplace s r j) =
      (jstrings j).map (fun st => replaceAll st s r) := by
  have hwf : jsonWF j = true := parseJson_WF h
  have hfacts := (jsonReplace_facts s r (sizeOf j)).1 j le_rfl
  have hwfr : jsonWF (jsonReplace s r j) = true := hfacts.2.1 hwf
  have hroute : safeReplace (some t) s r = jsonReplaceData t s r := by
    cases t with
    | nil => exact absurd h (by rw [show parseJson [] = none from rfl]; simp)
    | cons c0 rest =>
      have hjson : isJsonData (c0 :: rest) = true := by
        unfold isJsonData
        rw [h]
        rfl
      show (if (c0 :: rest).isEmpty = true then []
            else if isPhpSerialized (c0 :: rest) = true then
              phpReplace (c0 :: rest) s r
            else if isJsonData (c0 :: rest) = true then
              jsonReplaceData (c0 :: rest) s r
            else replaceAll (c0 :: rest) s r) = jsonReplaceData (c0 :: rest) s r
      rw [if_neg (by simp), if_neg (by simp [parseJson_not_php h]), if_pos hjson]
  have hout : safeReplace (some t) s r = dumps (jsonReplace s r j) := by
    rw [hroute]
    unfold jsonReplaceData
    rw [h]
  refine ⟨hroute, ?_, ?_, hfacts.1, hfacts.2.2⟩
  · rw [hout]
    unfold isJsonData
    rw [parseJson_dumps hwfr]
    rfl
  · rw [hout]
    exact parseJson_dumps hwfr

/-- C7 witness: the array `["ab"]` parses, the facade routes it to the JSON
rewriter, and replacing `a` by `zz` yields `["zzb"]` — valid JSON re-parsing
to the same shape with the single string leaf literally substituted. -/
theorem claim_C7_witness :
    parseJson "[\"ab\"]".data = some (.arr [.str "ab".data]) ∧
    (safeReplace (some "[\"ab\"]".data) "a".data "zz".data =
        jsonReplaceData "[\"ab\"]".data "a".data "zz".data ∧
      isJsonData (safeReplace (some "[\"ab\"]".data) "a".data "zz".data) = true ∧
      parseJson (safeReplace (some "[\"ab\"]".data) "a".data "zz".data) =
        some (jsonReplace "a".data "zz".data (.arr [.str "ab".data])) ∧
      jshape (jsonReplace "a".data "zz".data (.arr [.str "ab".data])) =
        jshape (.arr [.str "ab".data]) ∧
      jstrings (jsonReplace "a".data "zz".data (.arr [.str "ab".data])) =
        (jstrings (.arr [.str "ab".data])).map
          (fun st => replaceAll st "a".data "zz".data)) :=
  ⟨rfl, claim_C7 "[\"ab\"]".data "a".data "zz".data (.arr [.str "ab".data]) rfl⟩

end WpDbExplorer
